import Mathlib

/-!
Verification development for the SuperSearch transcript engine
(`supersearch_mcp_server.py` / `supersearch_tools.py`).

The engine is shallowly embedded over `List Char` content and
association-list state.  Python strings become `List Char`, the module
level `file_cache` dict becomes an association list from paths to
`FileRecord`s, the directory and the persisted cache file become an
explicit `World`, and exceptions raised by `open`/`re.compile` become
the `Except` error channel that the MCP tool layer converts into the
structured error envelope.
-/

namespace SuperSearch

/-! ## Content normalizer (`_clean_content`)

The Python function applies, in order:
`re.sub(CRLF, LF)`, `re.sub(CR, LF)`, `re.sub(HT-run, one space)`,
`re.sub(3+ newlines, 2)`, `re.sub(4+ periods, ellipsis)`,
`re.sub(3+ hyphens, 3)`, `str.strip()`.  Each substitution replaces
every maximal run matched by the pattern, left to right. -/

/-- Character class of the horizontal whitespace pattern `[ \t]`. -/
def isHT (c : Char) : Bool := c = ' ' || c = '\t'

/-- Character class stripped by Python `str.strip()` (ASCII whitespace). -/
def isWS (c : Char) : Bool :=
  c = ' ' || c = '\t' || c = '\n' || c = '\r' || c = '\x0b' || c = '\x0c'

/-- Embedding of `re.sub(r'\r\n', '\n', s)`: each (non-overlapping,
left-to-right) CRLF pair becomes a single LF. -/
def subCRLF : List Char → List Char
  | '\r' :: '\n' :: rest => '\n' :: subCRLF rest
  | c :: rest => c :: subCRLF rest
  | [] => []

/-- Embedding of `re.sub(r'\r', '\n', s)`: every remaining CR becomes LF. -/
def subCR (l : List Char) : List Char :=
  l.map (fun c => if c = '\r' then '\n' else c)

/-- Generic run collapser: scans the input, counting the current maximal
run of characters satisfying `p` in `k`; at the end of each run emits
`f k` in its place.  `f 0 = []` in every instantiation, so non-run text
is untouched.  This is the effect of `re.sub` on a maximal-run pattern. -/
def collapseRun (p : Char → Bool) (f : Nat → List Char) : Nat → List Char → List Char
  | k, [] => f k
  | k, c :: rest =>
    if p c then collapseRun p f (k + 1) rest
    else f k ++ c :: collapseRun p f 0 rest

/-- Replacement for a maximal `[ \t]` run of length `n` (one space). -/
def spBlock (n : Nat) : List Char := if n = 0 then [] else [' ']

/-- Replacement for a maximal newline run of length `n` (two newlines
once the run reaches three; shorter runs are kept). -/
def nlBlock (n : Nat) : List Char :=
  if 3 ≤ n then ['\n', '\n'] else List.replicate n '\n'

/-- Replacement for a maximal period run of length `n` (the ellipsis
once the run reaches four; shorter runs are kept). -/
def dotBlock (n : Nat) : List Char :=
  if 4 ≤ n then ['…'] else List.replicate n '.'

/-- Replacement for a maximal hyphen run of length `n` (three hyphens
once the run reaches three; shorter runs are kept). -/
def dashBlock (n : Nat) : List Char :=
  if 3 ≤ n then ['-', '-', '-'] else List.replicate n '-'

/-- Embedding of `re.sub(r'[ \t]+', ' ', s)`. -/
def collapseSpaces (l : List Char) : List Char :=
  collapseRun isHT spBlock 0 l

/-- Embedding of `re.sub(r'\n{3,}', '\n\n', s)`. -/
def collapseNewlines (l : List Char) : List Char :=
  collapseRun (fun c => c = '\n') nlBlock 0 l

/-- Embedding of `re.sub(r'\.{4,}', '…', s)`. -/
def collapseDots (l : List Char) : List Char :=
  collapseRun (fun c => c = '.') dotBlock 0 l

/-- Embedding of `re.sub(r'-{3,}', '---', s)`. -/
def collapseDashes (l : List Char) : List Char :=
  collapseRun (fun c => c = '-') dashBlock 0 l

/-- Embedding of Python `str.strip()`: drop whitespace from both ends. -/
def pstrip (l : List Char) : List Char :=
  (((l.dropWhile isWS).reverse.dropWhile isWS)).reverse

/-- Embedding of `_clean_content`: the six regex substitutions followed
by `strip()`, in source order. -/
def cleanContent (l : List Char) : List Char :=
  pstrip (collapseDashes (collapseDots (collapseNewlines
    (collapseSpaces (subCR (subCRLF l))))))

/-! ## Page markers and the page extractor (`_extract_pages`)

`sync` counts `re.findall(r'^# Page \d+', content, re.MULTILINE)`;
`_extract_pages` splits on the same multiline pattern with `re.split`,
strips each fragment and keeps the non-empty ones.  Both are modelled
on the line decomposition of the content: `^` matches exactly at the
start of the string and after every `'\n'`, i.e. at the start of each
element of `splitNl`. -/

/-- Split a character list on newline characters (Python `s.split('\n')`;
also the line decomposition used by `re.MULTILINE` anchors). -/
def splitNl : List Char → List (List Char)
  | [] => [[]]
  | '\n' :: rest => [] :: splitNl rest
  | c :: rest =>
    match splitNl rest with
    | s :: ss => (c :: s) :: ss
    | [] => [[c]]

/-- Test whether a line starts with the marker pattern `# Page \d+`;
if so, return the line remainder after the greedily matched digits
(what `re.split` leaves in the following fragment). -/
def lineMarkerRem : List Char → Option (List Char)
  | '#' :: ' ' :: 'P' :: 'a' :: 'g' :: 'e' :: ' ' :: d :: rest =>
    if d.isDigit then some (rest.dropWhile Char.isDigit) else none
  | _ => none

/-- Count of `^# Page \d+` matches (`re.findall` with `re.MULTILINE`):
one per line whose prefix matches the marker. -/
def countPageMarkers (content : List Char) : Nat :=
  ((splitNl content).filter (fun l => (lineMarkerRem l).isSome)).length

/-- Reassemble line segments with newline separators
(Python `'\n'.join`). -/
def joinNl : List (List Char) → List Char
  | [] => []
  | [s] => s
  | s :: rest => s ++ '\n' :: joinNl rest

/-- Worker for the `re.split(r'^# Page \d+', content, re.MULTILINE)`
fragment list: walks the lines, accumulating the current fragment's
segments in reverse; a marker line closes the current fragment (which
keeps the newline that preceded the marker, hence the extra `[]`
segment) and opens a new one starting with the marker line's remainder. -/
def splitPiecesGo (segs : List (List Char)) : List (List Char) → List (List Char)
  | [] => [joinNl segs.reverse]
  | l :: rest =>
    match lineMarkerRem l with
    | some rem => joinNl (segs.reverse ++ [[]]) :: splitPiecesGo [rem] rest
    | none => splitPiecesGo (l :: segs) rest

/-- The fragment list produced by `re.split(r'^# Page \d+', …)`. -/
def splitPieces (content : List Char) : List (List Char) :=
  splitPiecesGo [] (splitNl content)

/-- Embedding of `_extract_pages`: split on the marker pattern, strip
each fragment, keep the non-empty ones. -/
def extract_pages (content : List Char) : List (List Char) :=
  ((splitPieces content).map pstrip).filter (fun p => !p.isEmpty)

/-! ### Run measures and strip components (proof infrastructure) -/

/-- Scan computing the longest run of the character `d`: `k` is the
length of the run in progress, `m` the longest completed run. -/
def maxRunGo (d : Char) : Nat → Nat → List Char → Nat
  | k, m, [] => max m k
  | k, m, c :: rest =>
    if c = d then maxRunGo d (k + 1) m rest else maxRunGo d 0 (max m k) rest

/-- Length of the longest run of the character `d` in `l`. -/
def maxRun (d : Char) (l : List Char) : Nat := maxRunGo d 0 0 l

/-- Leading-whitespace strip (Python `lstrip`). -/
def dropLead (l : List Char) : List Char := l.dropWhile isWS

/-- Trailing-whitespace strip (Python `rstrip`). -/
def dropTrail (l : List Char) : List Char := (l.reverse.dropWhile isWS).reverse

/-! ## Data model: cache, records, world

The module-level `file_cache` dict is an insertion-ordered association
list (Python dict semantics: assignment to an existing key keeps its
position, a new key is appended).  The directory being synced, the
`.md` files it contains (in `glob` order) and the persisted cache file
form the `World`. -/

/-- Cached metadata for one indexed file (`file_cache[path]`).
`last_modified` abstracts the iso-format mtime string: only equality
of timestamps is ever used. -/
structure FileRecord where
  filename : List Char
  last_modified : Nat
  char_count : Nat
  estimated_tokens : Nat
  pages : Nat
deriving DecidableEq

/-- The in-memory / persisted cache: path-keyed association list. -/
abbrev Cache := List (String × FileRecord)

/-- On-disk state of one `.md` file: mtime and raw text. -/
structure FileData where
  mtime : Nat
  content : List Char
deriving DecidableEq

/-- The file system visible to the engine: whether the sync directory
exists, its `.md` files in `glob` order, and the persisted cache file
(`none` when no such file exists). -/
structure World where
  dirExists : Bool
  files : List (String × FileData)
  cacheFile : Option Cache
deriving DecidableEq

/-- First-match association-list lookup (`d[k]` / `k in d`). -/
def alookup {β : Type} (k : String) : List (String × β) → Option β
  | [] => none
  | (k2, v) :: rest => if k = k2 then some v else alookup k rest

/-- Python dict assignment `d[k] = v`: overwrite in place if the key is
present, append otherwise. -/
def upsert (c : Cache) (k : String) (v : FileRecord) : Cache :=
  if (alookup k c).isSome then
    c.map (fun p => if p.1 = k then (k, v) else p)
  else c ++ [(k, v)]

/-- Base name of a path (`md_file.name`). -/
def basename (path : String) : List Char :=
  (path.data.reverse.takeWhile (fun c => c ≠ '/')).reverse

/-- The metadata record `sync` builds for a new/modified file: counts
are taken on the raw content (the code reads the file "for metadata
without cleaning content"), pages counts the `^# Page \d+` markers. -/
def mkRecord (path : String) (fd : FileData) : FileRecord where
  filename := basename path
  last_modified := fd.mtime
  char_count := fd.content.length
  estimated_tokens := fd.content.length / 4
  pages := countPageMarkers fd.content

/-! ## Result envelopes

A Python operation either returns a dict — a payload or an explicit
`{"error": msg}` — or raises; the raise channel is `Except`.  The MCP
tool wrappers catch every exception and turn it into the same
`{"error": str(e)}` envelope. -/

/-- A value actually returned by an operation: payload or error dict. -/
inductive PyRes (α : Type) where
  | ok (a : α)
  | errDict (msg : String)
deriving DecidableEq

/-- Map over the payload of a returned value. -/
def PyRes.map {α β : Type} (f : α → β) : PyRes α → PyRes β
  | .ok a => .ok (f a)
  | .errDict m => .errDict m

/-- The `try/except` boundary of every MCP tool: a raised exception
becomes the structured `{"error": str(e)}` envelope. -/
def toolRun {α : Type} : Except String (PyRes α) → PyRes α
  | .ok r => r
  | .error m => .errDict m

/-- Raising `open()` on `self`-reported missing file. -/
def openFile (w : World) (path : String) : Except String (List Char) :=
  match alookup path w.files with
  | some fd => .ok fd.content
  | none => .error s!"No such file or directory: {path}"

/-! ## Regex engine interface

`re.compile`/`re.search` are abstracted: compilation of an invalid
pattern fails (Python raises `re.error`), a compiled pattern can test a
string and enumerate non-overlapping matches as (start, end) offset
pairs.  All theorems quantify over the engine. -/

/-- A compiled case-insensitive (multiline) pattern. -/
structure CompiledRegex where
  test : List Char → Bool
  findIter : List Char → List (Nat × Nat)

/-- The regex engine: `compile` returns `none` exactly when Python
`re.compile` would raise `re.error`. -/
structure RegexEngine where
  compile : List Char → Option CompiledRegex

/-! ## Sync (`_sync_files`) -/

/-- Sync results dict. -/
structure SyncStats where
  processed : Nat
  new_files : Nat
  updated_files : Nat
  total_cached : Nat
deriving DecidableEq

/-- The per-file scan loop of `_sync_files`: threading the cache,
counting processed / new / updated files.  A file is re-indexed when
its path is absent from the cache or its cached `last_modified`
differs from the current mtime; otherwise it is left as-is. -/
def syncScan (mem : Cache) : List (String × FileData) → Cache × Nat × Nat × Nat
  | [] => (mem, 0, 0, 0)
  | (path, fd) :: rest =>
    let step : Cache × Nat × Nat :=
      match alookup path mem with
      | none => (upsert mem path (mkRecord path fd), 1, 0)
      | some r =>
        if r.last_modified ≠ fd.mtime then (upsert mem path (mkRecord path fd), 0, 1)
        else (mem, 0, 0)
    let (memF, pr, nf, uf) := syncScan step.1 rest
    (memF, pr + 1, nf + step.2.1, uf + step.2.2)

/-- Embedding of `_sync_files(directory_path)`.  Note the source order:
the persisted cache is loaded into the module-level `file_cache`
*before* the directory-existence check, so on a missing directory the
in-memory cache has already been replaced by the loaded value (empty,
since a missing directory holds no cache file) when the error dict is
returned.  On success the full cache is written back to the cache file. -/
def sync_files (w : World) (_mem : Cache) : Cache × World × PyRes SyncStats :=
  let loaded : Cache := w.cacheFile.getD []
  if w.dirExists then
    let (memF, pr, nf, uf) := syncScan loaded w.files
    (memF, { w with cacheFile := some memF },
      .ok { processed := pr, new_files := nf, updated_files := uf,
            total_cached := memF.length })
  else
    (loaded, w, .errDict "Directory does not exist")

/-! ## Filename search (`_search_filenames`) -/

/-- Lower-casing used by the case-insensitive literal matches. -/
def lowerL (l : List Char) : List Char := l.map Char.toLower

/-- Python substring containment `needle in hay`. -/
def containsSub (needle : List Char) : List Char → Bool
  | [] => needle.isEmpty
  | c :: rest => needle.isPrefixOf (c :: rest) || containsSub needle rest

/-- One result row of the filename search. -/
structure FindEntry where
  file : String
  filename : List Char
  estimated_tokens : Nat
  pages : Nat
deriving DecidableEq

/-- Uniform preview-or-results envelope of both search operations. -/
inductive SearchOut (ε : Type) where
  | preview (count : Nat) (message : String)
  | results (count : Nat) (rs : List ε)
deriving DecidableEq

/-- The matching loop of `_search_filenames`: literal mode is
case-insensitive substring containment on the filename, regex mode is
`re.search(query, filename, re.IGNORECASE)` (which raises on an
invalid pattern at the first cache entry). -/
def filenameLoop (R : RegexEngine) (q : List Char) (rgx : Bool) :
    Cache → Except String (List FindEntry)
  | [] => .ok []
  | (path, r) :: rest => do
    let matched ←
      if rgx then
        match R.compile q with
        | none => Except.error "re.error: invalid regular expression"
        | some c => Except.ok (c.test r.filename)
      else
        Except.ok (containsSub (lowerL q) (lowerL r.filename))
    let restEntries ← filenameLoop R q rgx rest
    let entry : FindEntry :=
      { file := path
        filename := r.filename
        estimated_tokens := r.estimated_tokens
        pages := r.pages }
    pure (if matched then entry :: restEntries else restEntries)

/-- Warning message of the guardrail envelope. -/
def previewMsg (n : Nat) (what : String) : String :=
  s!"Found {n} {what}. This exceeds the safe limit of 10."

/-- Guardrail envelope shared by both searches: with `safe` and more
than 10 hits, return a preview dict instead of the results. -/
def guardEnvelope {ε : Type} (safe : Bool) (rs : List ε) (what : String) : SearchOut ε :=
  let n := rs.length
  if safe && decide (10 < n) then
    .preview n (previewMsg n what)
  else
    .results n rs

/-- Embedding of `_search_filenames(query, regex, safe)`. -/
def search_filenames (R : RegexEngine) (mem : Cache) (q : List Char)
    (rgx safe : Bool) : Except String (SearchOut FindEntry) := do
  let rs ← filenameLoop R q rgx mem
  pure (guardEnvelope safe rs "matching files")

/-! ## Content search (`_search_content`) -/

/-- One recorded match: 1-indexed line, match start offset (regex mode)
and the line text (literal mode). -/
structure MatchInfo where
  line : Nat
  start : Nat
  text : List Char
deriving DecidableEq

/-- 1-indexed line number of a character offset: newlines before the
offset, plus one. -/
def lineOfPos (content : List Char) (pos : Nat) : Nat :=
  ((content.take pos).filter (fun c => c = '\n')).length + 1

/-- `_get_snippet_around_position`: a 100-character window either side. -/
def snippetAround (content : List Char) (pos : Nat) : List Char :=
  let start := pos - 100
  let stop := min (pos + 100) content.length
  (content.drop start).take (stop - start)

/-- Matches of one file's cleaned content: regex mode walks `finditer`
offsets, literal mode scans lines for case-insensitive containment. -/
def contentMatches (R : RegexEngine) (q : List Char) (rgx : Bool)
    (content : List Char) : Except String (List MatchInfo) :=
  if rgx then
    match R.compile q with
    | none => .error "re.error: invalid regular expression"
    | some c =>
      .ok ((c.findIter content).map (fun se =>
        { line := lineOfPos content se.1, start := se.1,
          text := (content.drop se.1).take (se.2 - se.1) }))
  else
    .ok (((splitNl content).enum.filterMap (fun li =>
      if containsSub (lowerL q) (lowerL li.2) then
        some { line := li.1 + 1, start := 0, text := pstrip li.2 }
      else none)))

/-- One result row of the content search. -/
structure ContEntry where
  file : String
  match_count : Nat
  estimated_tokens : Nat
  snippets : Option (List (Nat × List Char))
deriving DecidableEq

/-- Per-file body of the `_search_content` loop: re-read and re-clean
the file, collect matches, and (when requested) attach up to three
snippets — the character window around a regex match, the stripped
line of a literal match. -/
def contentFileResult (R : RegexEngine) (w : World) (q : List Char)
    (rgx snips : Bool) (path : String) (r : FileRecord) :
    Except String (Option ContEntry) := do
  let raw ← openFile w path
  let content := cleanContent raw
  let ms ← contentMatches R q rgx content
  if ms.isEmpty then
    pure none
  else
    let sn :=
      if snips then
        some ((ms.take 3).map (fun m =>
          (m.line, if rgx then snippetAround content m.start else m.text)))
      else none
    pure (some { file := path, match_count := ms.length,
                 estimated_tokens := r.estimated_tokens, snippets := sn })

/-- The file loop of `_search_content`, head first (the first raised
exception aborts the whole search, as in Python). -/
def contentLoop (R : RegexEngine) (w : World) (q : List Char)
    (rgx snips : Bool) : List (String × FileRecord) → Except String (List ContEntry)
  | [] => .ok []
  | (path, r) :: rest => do
    let hd ← contentFileResult R w q rgx snips path r
    let tl ← contentLoop R w q rgx snips rest
    pure (match hd with | some e => e :: tl | none => tl)

/-- Embedding of `_search_content(query, files, regex, with_snippets,
safe)`: candidates are the whole cache, or the requested files that are
present in the cache (others silently skipped); the guardrail counts
files with at least one match. -/
def search_content (R : RegexEngine) (w : World) (mem : Cache) (q : List Char)
    (files : Option (List String)) (rgx snips safe : Bool) :
    Except String (SearchOut ContEntry) := do
  let cand : List (String × FileRecord) :=
    match files with
    | none => mem
    | some fl => fl.filterMap (fun f => (alookup f mem).map (fun r => (f, r)))
  let rs ← contentLoop R w q rgx snips cand
  pure (guardEnvelope safe rs "files with matching content")

/-! ## Line preview (`_preview_file`) -/

/-- Successful preview payload. -/
structure PreviewData where
  file : String
  start_line : Nat
  end_line : Nat
  total_lines : Nat
  returned_lines : Nat
  char_count : Nat
  estimated_tokens : Nat
  content : List Char
deriving DecidableEq

/-- Preview result: guardrail warning dict or content dict. -/
inductive PreviewOut where
  | warn (char_count : Nat) (message : String)
  | dat (d : PreviewData)
deriving DecidableEq

/-- Embedding of `_preview_file(file, start_line, end_line, safe)`. -/
def preview_file (w : World) (mem : Cache) (file : String)
    (start_line : Nat) (end_line : Option Nat) (safe : Bool) :
    Except String (PyRes PreviewOut) := do
  match alookup file mem with
  | none => pure (.errDict s!"File {file} not found in cache")
  | some _ => do
    let raw ← openFile w file
    let content := cleanContent raw
    let lines := splitNl content
    let total := lines.length
    let s1 := max start_line 1
    if total < s1 then
      pure (.errDict "Start line exceeds file length")
    else
      let e0 := end_line.getD total
      let e1 := min e0 total
      if e1 < s1 then
        pure (.errDict "End line cannot be less than start line")
      else
        let sel := (lines.drop (s1 - 1)).take (e1 - (s1 - 1))
        let body := joinNl sel
        let cc := body.length
        if safe && decide (2000 < cc) then
          pure (.ok (.warn cc "Requested lines exceed the 2000 character limit"))
        else
          pure (.ok (.dat
            { file := file, start_line := s1, end_line := e1,
              total_lines := total, returned_lines := sel.length, char_count := cc,
              estimated_tokens := cc / 4, content := body }))

/-! ## Page segmentation (`_segment_file`) -/

/-- One returned page segment. -/
structure Segment where
  page : Nat
  estimated_tokens : Nat
  content : List Char
deriving DecidableEq

/-- Successful segmentation payload. -/
structure SegmentData where
  file : String
  total_pages : Nat
  segments : List Segment
deriving DecidableEq

/-- Insertion sort used to model Python `sorted(page_list)`. -/
def insertSorted (n : Nat) : List Nat → List Nat
  | [] => [n]
  | m :: rest => if n ≤ m then n :: m :: rest else m :: insertSorted n rest

/-- Python `sorted` on a list of page numbers. -/
def sortNat (l : List Nat) : List Nat := l.foldr insertSorted []

/-- Truncate one page body to `max_chars`, appending `'...'` if cut. -/
def segmentOfPage (pages : List (List Char)) (maxChars : Nat) (n : Nat) : Segment :=
  let body := pages.getD (n - 1) []
  { page := n, estimated_tokens := body.length / 4,
    content := if maxChars < body.length
      then body.take maxChars ++ ['.', '.', '.'] else body }

/-- Embedding of `_segment_file(file, page_list, start_page, end_page,
max_chars)`. -/
def segment_file (w : World) (mem : Cache) (file : String)
    (pageList : Option (List Nat)) (startPage endPage maxChars : Nat) :
    Except String (PyRes SegmentData) := do
  match alookup file mem with
  | none => pure (.errDict s!"File {file} not found in cache")
  | some _ => do
    let raw ← openFile w file
    let content := cleanContent raw
    let pages := extract_pages content
    let total := pages.length
    let incl : Option (List Nat) :=
      match pageList with
      | some pl =>
        match pl.find? (fun n => n < 1 || total < n) with
        | some _ => none
        | none => some (sortNat pl)
      | none =>
        if startPage < 1 || total < startPage then none
        else if endPage < startPage || total < endPage then none
        else some (List.range' startPage (endPage + 1 - startPage))
    match incl with
    | none => pure (.errDict "page out of range")
    | some ns =>
      pure (.ok
        { file := file, total_pages := total,
          segments := ns.map (segmentOfPage pages maxChars) })

/-! ## Token estimation (`_estimate_tokens`, server revision) -/

/-- One row of the estimation breakdown: an estimate (whole-file or for
an explicit page selection) or a not-in-cache error row. -/
inductive EstEntry where
  | est (file : String) (selected : Option (List Nat)) (tokens : Nat)
  | errEntry (file : String) (msg : String)
deriving DecidableEq

/-- Estimation result dict. -/
structure EstimateData where
  total_estimated_tokens : Nat
  files : List EstEntry
  warning : Option String
deriving DecidableEq

/-- Token contribution of one breakdown row (error rows contribute
nothing to the grand total). -/
def entryTokens : EstEntry → Nat
  | .est _ _ t => t
  | .errEntry _ _ => 0

/-- The page-selection accumulation: each requested page number in
`[1, len pages]` contributes `len(page)//4`; others are skipped. -/
def pageTokens (pages : List (List Char)) : List Nat → Nat
  | [] => 0
  | n :: rest =>
    (if 1 ≤ n ∧ n ≤ pages.length then (pages.getD (n - 1) []).length / 4 else 0)
      + pageTokens pages rest

/-- First loop of `_estimate_tokens`: over the `files` list.  Returns
the processed set (cached files only), the breakdown rows and the
token sum.  Head first: an exception while re-reading a page-selected
file aborts the whole estimate. -/
def estLoop1 (w : World) (mem : Cache) (sels : List (String × List Nat)) :
    List String → Except String (List String × List EstEntry × Nat)
  | [] => .ok ([], [], 0)
  | f :: rest => do
    let hd : List String × EstEntry × Nat ←
      match alookup f mem with
      | none => Except.ok ([], .errEntry f "File not found in cache", 0)
      | some r =>
        match alookup f sels with
        | some pgs => do
          let raw ← openFile w f
          let pages := extract_pages (cleanContent raw)
          let tk := pageTokens pages pgs
          Except.ok ([f], .est f (some pgs) tk, tk)
        | none => Except.ok ([f], .est f none r.estimated_tokens, r.estimated_tokens)
    let (ps, es, t) ← estLoop1 w mem sels rest
    pure (hd.1 ++ ps, hd.2.1 :: es, hd.2.2 + t)

/-- Second loop of `_estimate_tokens`: over `selections` entries whose
file was not already processed by the first loop. -/
def estLoop2 (w : World) (mem : Cache) (processed : List String) :
    List (String × List Nat) → Except String (List EstEntry × Nat)
  | [] => .ok ([], 0)
  | (f, pgs) :: rest =>
    if processed.contains f then estLoop2 w mem processed rest
    else do
      let hd : EstEntry × Nat ←
        match alookup f mem with
        | none => Except.ok (.errEntry f "File not found in cache", 0)
        | some _ => do
          let raw ← openFile w f
          let pages := extract_pages (cleanContent raw)
          let tk := pageTokens pages pgs
          Except.ok (.est f (some pgs) tk, tk)
      let (es, t) ← estLoop2 w mem processed rest
      pure (hd.1 :: es, hd.2 + t)

/-- Embedding of the server `_estimate_tokens(files, selections)`:
files from the `files` list, then selection-only files; 100k warning
threshold. -/
def estimate_tokens (w : World) (mem : Cache) (files : List String)
    (sels : List (String × List Nat)) : Except String EstimateData := do
  let (ps, es1, t1) ← estLoop1 w mem sels files
  let (es2, t2) ← estLoop2 w mem ps sels
  let total := t1 + t2
  pure { total_estimated_tokens := total, files := es1 ++ es2,
         warning := if 100000 < total then some "Over 100k tokens" else none }

/-! ## File reader (`_read_file`, server revision) -/

/-- How the content was selected (abstracts the `mode` string). -/
inductive ReadMode where
  | full
  | pagesList (pl : List Nat)
  | pagesRange (s e : Nat)
deriving DecidableEq

/-- Read result dict. -/
structure ReadData where
  file : String
  mode : ReadMode
  selected_pages : Option (List Nat)
  char_count : Nat
  estimated_tokens : Nat
  content : List Char
deriving DecidableEq

/-- The synthetic `# Page N` header re-inserted before each selected
page body. -/
def pageHeader (n : Nat) : List Char :=
  ['#', ' ', 'P', 'a', 'g', 'e', ' '] ++ (toString n).data

/-- Embedding of `_read_file(file, page_list, start_page, end_page)`:
full cleaned content (with the *cached* counts) when no page parameter
is given; otherwise validated page selection re-assembled with
synthetic headers and freshly computed counts. -/
def read_file (w : World) (mem : Cache) (file : String)
    (pageList : Option (List Nat)) (startPage endPage : Option Nat) :
    Except String (PyRes ReadData) := do
  match alookup file mem with
  | none => pure (.errDict s!"File {file} not found in cache")
  | some r => do
    let raw ← openFile w file
    let content := cleanContent raw
    if pageList.isNone && startPage.isNone && endPage.isNone then
      pure (.ok
        { file := file, mode := .full, selected_pages := none,
          char_count := r.char_count, estimated_tokens := r.estimated_tokens,
          content := content })
    else
      let pages := extract_pages content
      let total := pages.length
      let sel : Option (List Nat × ReadMode) :=
        match pageList with
        | some pl =>
          match pl.find? (fun n => n < 1 || total < n) with
          | some _ => none
          | none => some (sortNat pl, .pagesList pl)
        | none =>
          let s := startPage.getD 1
          let e := endPage.getD total
          if s < 1 || total < s then none
          else if e < s || total < e then none
          else some (List.range' s (e + 1 - s), .pagesRange s e)
      match sel with
      | none => pure (.errDict "page out of range")
      | some (ns, mode) =>
        let body := List.intercalate ['\n', '\n']
          (ns.map (fun n => pageHeader n ++ '\n' :: pages.getD (n - 1) []))
        pure (.ok
          { file := file, mode := mode, selected_pages := some ns,
            char_count := body.length, estimated_tokens := body.length / 4,
            content := body })

/-! ## The MCP tool layer

Each public tool is the corresponding engine function behind the
uniform `try/except` boundary.  `Op` enumerates the public operations;
`innerApply` runs the engine (state × raised-or-returned result), and
`toolApply` is what the MCP caller observes. -/

/-- Process state: the directory/persisted-cache world plus the
module-level in-memory cache. -/
structure ServerState where
  world : World
  mem : Cache
deriving DecidableEq

/-- One public operation with its arguments. -/
inductive Op where
  | syncDir
  | findFiles (q : List Char) (rgx safe : Bool)
  | searchCont (q : List Char) (files : Option (List String)) (rgx snips safe : Bool)
  | previewLines (file : String) (startLine : Nat) (endLine : Option Nat) (safe : Bool)
  | pageSegments (file : String) (pageList : Option (List Nat)) (startPage endPage maxChars : Nat)
  | estimateToks (files : List String) (sels : List (String × List Nat))
  | readFileOp (file : String) (pageList : Option (List Nat)) (startPage endPage : Option Nat)
deriving DecidableEq

/-- Sum of the tools' payload types. -/
inductive OpOut where
  | sync (r : SyncStats)
  | find (r : SearchOut FindEntry)
  | cont (r : SearchOut ContEntry)
  | preview (r : PreviewOut)
  | segment (r : SegmentData)
  | estimate (r : EstimateData)
  | read (r : ReadData)
deriving DecidableEq

/-- Run one public operation against the engine: next state, and the
returned-or-raised result before the tool boundary. -/
def innerApply (R : RegexEngine) (st : ServerState) :
    Op → ServerState × Except String (PyRes OpOut)
  | .syncDir =>
    let (mem2, w2, r) := sync_files st.world st.mem
    (⟨w2, mem2⟩, .ok (r.map .sync))
  | .findFiles q rgx safe =>
    (st, (search_filenames R st.mem q rgx safe).map (fun r => .ok (.find r)))
  | .searchCont q files rgx snips safe =>
    (st, (search_content R st.world st.mem q files rgx snips safe).map
      (fun r => .ok (.cont r)))
  | .previewLines file s e safe =>
    (st, (preview_file st.world st.mem file s e safe).map (PyRes.map .preview))
  | .pageSegments file pl s e mc =>
    (st, (segment_file st.world st.mem file pl s e mc).map (PyRes.map .segment))
  | .estimateToks files sels =>
    (st, (estimate_tokens st.world st.mem files sels).map (fun r => .ok (.estimate r)))
  | .readFileOp file pl s e =>
    (st, (read_file st.world st.mem file pl s e).map (PyRes.map .read))

/-- The public MCP tool call: `innerApply` behind the `try/except`
boundary — what the calling agent observes. -/
def toolApply (R : RegexEngine) (st : ServerState) (op : Op) :
    ServerState × PyRes OpOut :=
  let (st2, r) := innerApply R st op
  (st2, toolRun r)

/-! ## Concrete instances used by witnesses and counterexamples -/

/-- A regex engine that rejects every pattern (only literal-mode and
compile-failure behaviour is exercised by concrete instances). -/
def R0 : RegexEngine := { compile := fun _ => none }

/-- A directory with one file whose raw text `"a  b"` is changed by
cleaning (the double space collapses). -/
def exWorldA : World :=
  { dirExists := true
    files := [("t/a.md", { mtime := 5, content := ['a', ' ', ' ', 'b'] })]
    cacheFile := none }

/-- Fresh state over `exWorldA`, before any sync. -/
def exStA0 : ServerState := { world := exWorldA, mem := [] }

/-- State after a first sync of `exWorldA` (indexes the file). -/
def exStA1 : ServerState := (toolApply R0 exStA0 .syncDir).1

/-- State after a second sync of `exWorldA` (observes the file
unchanged). -/
def exStA2 : ServerState := (toolApply R0 exStA1 .syncDir).1

/-- A directory with one already-clean file `"hi"`. -/
def exWorldH : World :=
  { dirExists := true
    files := [("t/h.md", { mtime := 1, content := ['h', 'i'] })]
    cacheFile := none }

/-- State after syncing `exWorldH`. -/
def exStH : ServerState := (toolApply R0 { world := exWorldH, mem := [] } .syncDir).1

/-- Raw content of a two-page marked transcript file. -/
def exPagedContent : List Char :=
  ['#', ' ', 'P', 'a', 'g', 'e', ' ', '1', '\n', 'h', 'i', '\n',
   '#', ' ', 'P', 'a', 'g', 'e', ' ', '2', '\n', 'y', 'o']

/-- A directory with the two-page file `t/p.md`. -/
def exWorldP : World :=
  { dirExists := true
    files := [("t/p.md", { mtime := 1, content := exPagedContent })]
    cacheFile := none }

/-- State after syncing `exWorldP`. -/
def exStP : ServerState := (toolApply R0 { world := exWorldP, mem := [] } .syncDir).1

/-- The estimation result for a selection-only request of page 1 of
`t/p.md` on the synced state. -/
def exEstRes : EstimateData :=
  { total_estimated_tokens := 0
    files := [.est "t/p.md" (some [1]) 0]
    warning := none }

/-- A cache entry for a path that does not exist on disk. -/
def ghostRec : FileRecord :=
  { filename := ['g', '.', 'm', 'd'], last_modified := 3, char_count := 8,
    estimated_tokens := 2, pages := 0 }

/-- A state whose cache mentions `"g.md"` although the file system has
no such file (the file was deleted after it was indexed). -/
def exStGhost : ServerState :=
  { world := { dirExists := true, files := [], cacheFile := none }
    mem := [("g.md", ghostRec)] }

/-- A state with a non-empty in-memory cache whose sync directory is
missing (and hence holds no cache file). -/
def exStNoDir : ServerState :=
  { world := { dirExists := false, files := [], cacheFile := none }
    mem := [("g.md", ghostRec)] }

/-- The single filename-search result row on the synced one-file
state (used by the C8 witness). -/
def exFindRow : FindEntry :=
  { file := "t/a.md", filename := ['a', '.', 'm', 'd'], estimated_tokens := 1, pages := 0 }

/-- A marker-free two-character file (used by the C10 witness). -/
def exFdM : FileData :=
  { mtime := 5
    content := ['h', 'i'] }

/-- A world holding only the marker-free file. -/
def exWorldM : World :=
  { dirExists := true
    files := [("d/m.md", exFdM)]
    cacheFile := none }

/-- The cache produced by indexing the marker-free file. -/
def exMemM : Cache := [("d/m.md", mkRecord "d/m.md" exFdM)]

/-! ## Supporting lemmas -/

/-- Lookup distributes over append, first list first. -/
theorem alookup_append {b : Type} (k : String) (c d : List (String × b)) :
    alookup k (c ++ d) =
      match alookup k c with
      | some v => some v
      | none => alookup k d := by
  induction c with
  | nil => rfl
  | cons hd tl ih =>
    by_cases hk : k = hd.1
    · simp [alookup, hk]
    · simpa [alookup, hk] using ih

/-- Lookup after the in-place replacement `map` used by `upsert` on a
present key: the new value if the key occurs, nothing otherwise. -/
theorem alookup_mapReplace (c : Cache) (k : String) (v : FileRecord) :
    alookup k (c.map (fun p => if p.1 = k then (k, v) else p)) =
      if (alookup k c).isSome then some v else none := by
  induction c with
  | nil => simp [alookup]
  | cons hd tl ih =>
    obtain ⟨k1, v1⟩ := hd
    simp only [List.map_cons]
    by_cases hk : k1 = k
    · subst hk
      rw [show (if (k1, v1).1 = k1 then (k1, v) else (k1, v1)) = (k1, v) from if_pos rfl]
      simp [alookup]
    · rw [show (if (k1, v1).1 = k then (k, v) else (k1, v1)) = (k1, v1) from if_neg hk]
      have hk2 : ¬ k = k1 := fun h => hk h.symm
      simp only [alookup, if_neg hk2, ih]

/-- The in-place replacement of one key leaves other lookups unchanged. -/
theorem alookup_mapReplace_other (c : Cache) (k k2 : String) (v : FileRecord)
    (h : k2 ≠ k) :
    alookup k2 (c.map (fun p => if p.1 = k then (k, v) else p)) = alookup k2 c := by
  induction c with
  | nil => rfl
  | cons hd tl ih =>
    obtain ⟨k1, v1⟩ := hd
    simp only [List.map_cons]
    by_cases hk : k1 = k
    · subst hk
      rw [show (if (k1, v1).1 = k1 then (k1, v) else (k1, v1)) = (k1, v) from if_pos rfl]
      simp only [alookup, if_neg h, ih]
    · rw [show (if (k1, v1).1 = k then (k, v) else (k1, v1)) = (k1, v1) from if_neg hk]
      by_cases hk2 : k2 = k1
      · simp [alookup, hk2]
      · simp only [alookup, if_neg hk2, ih]

/-- Upserting a key makes it look up to the new value. -/
theorem alookup_upsert_self (c : Cache) (k : String) (v : FileRecord) :
    alookup k (upsert c k v) = some v := by
  unfold upsert
  cases hs : alookup k c with
  | some r => simp [hs, alookup_mapReplace]
  | none => simp [hs, alookup_append, alookup]

/-- Upserting one key does not change the lookup of another. -/
theorem alookup_upsert_other (c : Cache) (k k2 : String) (v : FileRecord)
    (h : k2 ≠ k) : alookup k2 (upsert c k v) = alookup k2 c := by
  unfold upsert
  cases hs : alookup k c with
  | some r => simp [hs, alookup_mapReplace_other c k k2 v h]
  | none =>
    simp only [hs, Option.isSome_none, Bool.false_eq_true, if_false, alookup_append]
    cases hc : alookup k2 c with
    | some v2 => rfl
    | none => simp [alookup, h]

/-- After a scan, paths not occurring in the scanned file list keep
their lookups. -/
theorem syncScan_lookup_frame (files : List (String × FileData)) (mem : Cache)
    (p : String) (hp : p ∉ files.map Prod.fst) :
    alookup p (syncScan mem files).1 = alookup p mem := by
  induction files generalizing mem with
  | nil => rfl
  | cons hd tl ih =>
    simp only [List.map_cons, List.mem_cons] at hp
    push_neg at hp
    simp only [syncScan]
    rw [ih _ hp.2]
    cases hlk : alookup hd.1 mem with
    | none => exact alookup_upsert_other mem hd.1 p _ hp.1
    | some r =>
      by_cases hm : r.last_modified ≠ hd.2.mtime
      · simp only [hlk, if_pos hm]
        exact alookup_upsert_other mem hd.1 p _ hp.1
      · simp [hlk, hm]

/-- After a scan with distinct paths, every scanned file looks up to a
record carrying its current mtime (freshly indexed or already fresh). -/
theorem syncScan_lookup_fresh (files : List (String × FileData)) (mem : Cache)
    (hnd : (files.map Prod.fst).Nodup) (p : String) (fd : FileData)
    (hmem : (p, fd) ∈ files) :
    ∃ r, alookup p (syncScan mem files).1 = some r ∧ r.last_modified = fd.mtime := by
  induction files generalizing mem with
  | nil => cases hmem
  | cons hd tl ih =>
    simp only [List.map_cons, List.nodup_cons] at hnd
    rcases List.mem_cons.mp hmem with heq | htl
    · subst heq
      have hfr : p ∉ tl.map Prod.fst := hnd.1
      simp only [syncScan]
      rw [syncScan_lookup_frame tl _ p hfr]
      cases hlk : alookup p mem with
      | none =>
        exact ⟨mkRecord p fd, by simp [hlk, alookup_upsert_self], rfl⟩
      | some r =>
        by_cases hm : r.last_modified ≠ fd.mtime
        · exact ⟨mkRecord p fd, by simp [hlk, hm, alookup_upsert_self], rfl⟩
        · push_neg at hm
          exact ⟨r, by simp [hlk, hm], hm⟩
    · simp only [syncScan]
      exact ih _ hnd.2 htl

/-- Scanning a cache in which every file is fresh changes nothing and
counts no new or updated files. -/
theorem syncScan_fresh_noop (files : List (String × FileData)) (mem : Cache)
    (h : ∀ p fd, (p, fd) ∈ files →
      ∃ r, alookup p mem = some r ∧ r.last_modified = fd.mtime) :
    syncScan mem files = (mem, files.length, 0, 0) := by
  induction files with
  | nil => rfl
  | cons hd tl ih =>
    obtain ⟨r, hr, hm⟩ := h hd.1 hd.2 (by simp)
    have htl := ih (fun p fd hpf => h p fd (List.mem_cons_of_mem hd hpf))
    simp only [syncScan, hr, hm]
    simp [htl]

/-! ## Claims -/

/-- Claim C9: read-time operations are cache-frame-preserving.  For
every regex engine, server state and public operation other than sync
(filename search, content search, line preview, page segmentation,
token estimation, file read), the entire state — the in-memory cache
mapping with every `FileRecord` in it, and the world — is unchanged by
the call; only the sync operation mutates it. -/
theorem spec_c9 (R : RegexEngine) (st : ServerState) (op : Op)
    (h : op ≠ Op.syncDir) : (toolApply R st op).1 = st := by
  cases op with
  | syncDir => exact absurd rfl h
  | findFiles q rgx safe => rfl
  | searchCont q files rgx snips safe => rfl
  | previewLines file s e safe => rfl
  | pageSegments file pl s e mc => rfl
  | estimateToks files sels => rfl
  | readFileOp file pl s e => rfl

/-- Witness for C9: a concrete read-time call (a filename search on the
synced state) leaves the state untouched. -/
theorem spec_c9_witness :
    (toolApply R0 exStA1 (.findFiles ['a'] false true)).1 = exStA1 :=
  spec_c9 R0 exStA1 (.findFiles ['a'] false true) (by decide)

/-- Counterexample for claim C2.  The claim says a sync of a missing
directory leaves the cache state — including the in-memory mapping —
unchanged.  On the concrete state `exStNoDir` (non-empty in-memory
cache, missing directory) sync returns the error dict, but the
in-memory cache has been emptied, because `_sync_files` reloads
`file_cache` from the (absent) persisted cache file before the
directory-existence check. -/
theorem spec_c2_counterexample :
    (toolApply R0 exStNoDir .syncDir).2 = .errDict "Directory does not exist" ∧
    exStNoDir.mem ≠ [] ∧
    (toolApply R0 exStNoDir .syncDir).1.mem = [] := by
  refine ⟨by decide, by decide, by decide⟩

/-- Claim C2 as amended: for every state whose sync directory does not
exist (hence no persisted cache file exists under it), sync returns an
error dict and the world — in particular the persisted cache file — is
unchanged, but the in-memory cache is replaced by the empty cache
loaded from the missing cache file rather than left untouched. -/
theorem spec_c2 (R : RegexEngine) (st : ServerState)
    (h1 : st.world.dirExists = false) (h2 : st.world.cacheFile = none) :
    (toolApply R st .syncDir).2 = .errDict "Directory does not exist" ∧
    (toolApply R st .syncDir).1.world = st.world ∧
    (toolApply R st .syncDir).1.mem = [] := by
  simp [toolApply, innerApply, sync_files, h1, h2, toolRun, PyRes.map]

/-- Witness for C2: the amended statement at the concrete state
`exStNoDir`. -/
theorem spec_c2_witness :
    (toolApply R0 exStNoDir .syncDir).2 = .errDict "Directory does not exist" ∧
    (toolApply R0 exStNoDir .syncDir).1.world = exStNoDir.world ∧
    (toolApply R0 exStNoDir .syncDir).1.mem = [] :=
  spec_c2 R0 exStNoDir (by decide) (by decide)

/-- Claim C8: filename-search guardrail.  Whenever the matching loop
succeeds with result list `rs` (regex mode can raise; literal mode
always succeeds), `findFilesByName` with `safe = true` returns a
preview envelope — `preview = true` with a count and message and no
results — if and only if the number of matching cached files exceeds
10, and with `safe = false` it always returns the full results list
with `preview = false`, regardless of the count. -/
theorem spec_c8 (R : RegexEngine) (mem : Cache) (q : List Char) (rgx : Bool)
    (rs : List FindEntry) (h : filenameLoop R q rgx mem = .ok rs) :
    ((∃ c m, search_filenames R mem q rgx true = .ok (.preview c m)) ↔ 10 < rs.length) ∧
    search_filenames R mem q rgx false = .ok (.results rs.length rs) := by
  by_cases hlen : 10 < rs.length
  · refine ⟨⟨fun _ => hlen, fun _ => ?_⟩, ?_⟩
    · refine ⟨rs.length, previewMsg rs.length "matching files", ?_⟩
      simp [search_filenames, h, guardEnvelope, hlen]
    · simp [search_filenames, h, guardEnvelope]
  · refine ⟨⟨?_, fun hgt => absurd hgt hlen⟩, ?_⟩
    · rintro ⟨c, m, hcm⟩
      simp [search_filenames, h, guardEnvelope, hlen] at hcm
    · simp [search_filenames, h, guardEnvelope]

/-- Witness for C8: on the synced one-file state, the literal query
`"a"` matches one file; one is not more than ten, so safe mode returns
no preview, and unsafe mode returns the single result row. -/
theorem spec_c8_witness :
    ((∃ c m, search_filenames R0 exStA1.mem ['a'] false true = .ok (.preview c m)) ↔
      10 < [exFindRow].length) ∧
    search_filenames R0 exStA1.mem ['a'] false false = .ok (.results [exFindRow].length [exFindRow]) :=
  spec_c8 R0 exStA1.mem ['a'] false [exFindRow] (by rfl)

/-- Counterexample for claim C1.  The claim says `readFile(f)` with no
page arguments returns cleaned content whose length equals the cached
`charCount` (described as the length of cleaned content at last index
time).  Concretely: the file `t/a.md` holds `"a  b"` (4 characters
raw); sync caches `charCount = 4` because `_sync_files` measures the
*raw* text; after a second sync that observed the file unchanged,
`read_file` returns the cleaned content `"a b"` of length 3 ≠ 4. -/
theorem spec_c1_counterexample :
    (toolApply R0 exStA2 (.readFileOp "t/a.md" none none none)).2 =
      .ok (.read
        { file := "t/a.md", mode := .full, selected_pages := none,
          char_count := 4, estimated_tokens := 1, content := ['a', ' ', 'b'] }) ∧
    (alookup "t/a.md" exStA2.mem) = some (mkRecord "t/a.md" { mtime := 5, content := ['a', ' ', ' ', 'b'] }) ∧
    (mkRecord "t/a.md" { mtime := 5, content := ['a', ' ', ' ', 'b'] }).char_count = 4 ∧
    (['a', ' ', 'b'] : List Char).length = 3 := by
  refine ⟨by decide, by decide, by decide, by decide⟩

/-- Claim C1 as amended: the cached `charCount` is the length of the
*raw* content at last index time, and `readFile` with no page
arguments returns the cleaned content; the two lengths agree exactly
when cleaning leaves the raw content unchanged.  So: for every file
whose cache record was built by sync from its current on-disk content,
if that raw content is already in cleaned form, the full read returns
content whose length equals the cached `charCount`. -/
theorem spec_c1 (w : World) (mem : Cache) (f : String) (fd : FileData)
    (h1 : alookup f mem = some (mkRecord f fd))
    (h2 : alookup f w.files = some fd)
    (h3 : cleanContent fd.content = fd.content) :
    read_file w mem f none none none =
      .ok (.ok
        { file := f, mode := .full, selected_pages := none,
          char_count := (mkRecord f fd).char_count,
          estimated_tokens := (mkRecord f fd).estimated_tokens,
          content := cleanContent fd.content }) ∧
    (cleanContent fd.content).length = (mkRecord f fd).char_count := by
  constructor
  · simp [read_file, h1, h2, openFile]
  · rw [h3]; rfl

/-- Witness for C1: the already-clean file `"hi"`; the full read
returns content of length 2, equal to the cached `charCount`. -/
theorem spec_c1_witness :
    read_file exStH.world exStH.mem "t/h.md" none none none =
      .ok (.ok
        { file := "t/h.md", mode := .full, selected_pages := none,
          char_count := (mkRecord "t/h.md" { mtime := 1, content := ['h', 'i'] }).char_count,
          estimated_tokens := (mkRecord "t/h.md" { mtime := 1, content := ['h', 'i'] }).estimated_tokens,
          content := cleanContent ['h', 'i'] }) ∧
    (cleanContent ['h', 'i']).length =
      (mkRecord "t/h.md" { mtime := 1, content := ['h', 'i'] }).char_count :=
  spec_c1 exStH.world exStH.mem "t/h.md" { mtime := 1, content := ['h', 'i'] }
    (by decide) (by decide) (by decide)

/-- Claim C3: exception containment.  First conjunct: for every public
operation and any input/state, whatever the engine raises is converted
by the tool boundary into the structured error dict with that message —
the tool layer itself is a total function into payload-or-error-dict
results, so no exception escapes to the caller.  Second conjunct: a
read of a cached path whose file no longer exists on disk surfaces the
`open` failure as an error dict.  Third conjunct: a content search in
regex mode whose query fails to compile (with at least one cached
candidate file that is readable, so that the loop body runs) surfaces
the `re.error` as an error dict. -/
theorem spec_c3 :
    (∀ (R : RegexEngine) (st : ServerState) (op : Op) (m : String),
      (innerApply R st op).2 = .error m → (toolApply R st op).2 = .errDict m) ∧
    (∀ (R : RegexEngine) (st : ServerState) (f : String),
      (alookup f st.mem).isSome → alookup f st.world.files = none →
      (toolApply R st (.readFileOp f none none none)).2 =
        .errDict s!"No such file or directory: {f}") ∧
    (∀ (R : RegexEngine) (st : ServerState) (q : List Char) (snips safe : Bool)
      (p : String) (r : FileRecord) (rest : List (String × FileRecord)),
      st.mem = (p, r) :: rest → (alookup p st.world.files).isSome →
      R.compile q = none →
      (toolApply R st (.searchCont q none true snips safe)).2 =
        .errDict "re.error: invalid regular expression") := by
  refine ⟨?_, ?_, ?_⟩
  · intro R st op m h
    simp only [toolApply, toolRun]
    split
    · rename_i heq
      rw [h] at heq
      cases heq
    · rename_i heq
      rw [h] at heq
      cases heq
      rfl
  · intro R st f h1 h2
    obtain ⟨r, hr⟩ := Option.isSome_iff_exists.mp h1
    simp [toolApply, innerApply, read_file, hr, h2, openFile, toolRun,
      Except.map, Bind.bind, Except.bind]
  · intro R st q snips safe p r rest hmem hfs hcomp
    obtain ⟨fd, hfd⟩ := Option.isSome_iff_exists.mp hfs
    simp [toolApply, innerApply, search_content, hmem, contentLoop,
      contentFileResult, openFile, hfd, contentMatches, hcomp, toolRun,
      Except.map, Bind.bind, Except.bind, pure, Except.pure]

/-- Witness for C3: on the concrete state whose cache lists the
deleted file `g.md`, the read tool returns the structured error dict
for the failed `open`; and with a failing pattern, the content search
tool on a readable cached file returns the structured `re.error`
dict. -/
theorem spec_c3_witness :
    (toolApply R0 exStGhost (.readFileOp "g.md" none none none)).2 =
      .errDict "No such file or directory: g.md" ∧
    (toolApply R0 exStA1 (.searchCont ['('] none true true true)).2 =
      .errDict "re.error: invalid regular expression" :=
  ⟨spec_c3.2.1 R0 exStGhost "g.md" (by decide) (by decide),
   spec_c3.2.2 R0 exStA1 ['('] true true "t/a.md"
     (mkRecord "t/a.md" { mtime := 5, content := ['a', ' ', ' ', 'b'] }) []
     (by decide) (by decide) rfl⟩

/-- Claim C7: sync idempotence.  For every state whose sync directory
exists and whose directory listing has distinct paths, running sync a
second time with no filesystem change yields `newFiles = 0` and
`updatedFiles = 0`, and the persisted cache file content after the
second run equals the one after the first run. -/
theorem spec_c7 (R : RegexEngine) (st : ServerState)
    (h1 : st.world.dirExists = true)
    (h2 : (st.world.files.map Prod.fst).Nodup) :
    ∃ s2 : SyncStats,
      (toolApply R (toolApply R st .syncDir).1 .syncDir).2 = .ok (.sync s2) ∧
      s2.new_files = 0 ∧ s2.updated_files = 0 ∧
      (toolApply R (toolApply R st .syncDir).1 .syncDir).1.world.cacheFile =
        (toolApply R st .syncDir).1.world.cacheFile := by
  have key : ∀ p fd, (p, fd) ∈ st.world.files →
      ∃ r, alookup p (syncScan (st.world.cacheFile.getD []) st.world.files).1 = some r ∧
        r.last_modified = fd.mtime :=
    fun p fd hm => syncScan_lookup_fresh _ _ h2 p fd hm
  have hnoop := syncScan_fresh_noop st.world.files
    (syncScan (st.world.cacheFile.getD []) st.world.files).1 key
  refine ⟨{ processed := st.world.files.length, new_files := 0, updated_files := 0,
            total_cached := (syncScan (st.world.cacheFile.getD []) st.world.files).1.length },
    ?_, rfl, rfl, ?_⟩ <;>
    simp [toolApply, innerApply, sync_files, h1, hnoop, toolRun, PyRes.map]

/-- Witness for C7: both syncs of the one-file directory, concretely;
the second reports zero new and zero updated files and persists the
same cache file. -/
theorem spec_c7_witness :
    ∃ s2 : SyncStats,
      (toolApply R0 (toolApply R0 exStA0 .syncDir).1 .syncDir).2 = .ok (.sync s2) ∧
      s2.new_files = 0 ∧ s2.updated_files = 0 ∧
      (toolApply R0 (toolApply R0 exStA0 .syncDir).1 .syncDir).1.world.cacheFile =
        (toolApply R0 exStA0 .syncDir).1.world.cacheFile :=
  spec_c7 R0 exStA0 (by decide) (by decide)

/-- Every path in the processed set of the first estimation loop comes
from the `files` argument. -/
theorem estLoop1_processed_subset (w : World) (mem : Cache)
    (sels : List (String × List Nat)) (files : List String)
    (ps : List String) (es : List EstEntry) (t : Nat)
    (hok : estLoop1 w mem sels files = .ok (ps, es, t)) : ps ⊆ files := by
  induction files generalizing ps es t with
  | nil =>
    simp only [estLoop1] at hok
    cases hok
    exact List.nil_subset _
  | cons f0 rest ih =>
    simp only [estLoop1, Bind.bind, Except.bind] at hok
    cases halo : alookup f0 mem with
    | none =>
      rw [halo] at hok
      cases hrest : estLoop1 w mem sels rest with
      | error e => rw [hrest] at hok; cases hok
      | ok trip =>
        obtain ⟨ps2, es2, t2⟩ := trip
        rw [hrest] at hok
        cases hok
        exact List.Subset.trans (by simpa using ih ps2 es2 t2 hrest)
          (List.subset_cons_self f0 rest)
    | some r =>
      rw [halo] at hok
      cases hsel : alookup f0 sels with
      | none =>
        rw [hsel] at hok
        cases hrest : estLoop1 w mem sels rest with
        | error e => rw [hrest] at hok; cases hok
        | ok trip =>
          obtain ⟨ps2, es2, t2⟩ := trip
          rw [hrest] at hok
          cases hok
          intro x hx
          rcases List.mem_cons.mp hx with hx0 | hx2
          · exact hx0 ▸ List.mem_cons_self f0 rest
          · exact List.mem_cons_of_mem f0 (ih ps2 es2 t2 hrest hx2)
      | some pgs =>
        rw [hsel] at hok
        cases hop : openFile w f0 with
        | error e => rw [hop] at hok; cases hok
        | ok raw =>
          rw [hop] at hok
          simp only [Bind.bind, Except.bind] at hok
          cases hrest : estLoop1 w mem sels rest with
          | error e => rw [hrest] at hok; cases hok
          | ok trip =>
            obtain ⟨ps2, es2, t2⟩ := trip
            rw [hrest] at hok
            cases hok
            intro x hx
            rcases List.mem_cons.mp hx with hx0 | hx2
            · exact hx0 ▸ List.mem_cons_self f0 rest
            · exact List.mem_cons_of_mem f0 (ih ps2 es2 t2 hrest hx2)

/-- When the second estimation loop succeeds, every selection entry
whose (cached, on-disk) file escaped the first loop contributes its
selected-pages estimate to the breakdown. -/
theorem estLoop2_mem (w : World) (mem : Cache) (processed : List String)
    (sels : List (String × List Nat)) (f : String) (pgs : List Nat)
    (r : FileRecord) (fd : FileData) (es : List EstEntry) (t : Nat)
    (hsel : (f, pgs) ∈ sels) (hproc : ¬ processed.contains f)
    (hcache : alookup f mem = some r) (hdisk : alookup f w.files = some fd)
    (hok : estLoop2 w mem processed sels = .ok (es, t)) :
    EstEntry.est f (some pgs)
      (pageTokens (extract_pages (cleanContent fd.content)) pgs) ∈ es := by
  induction sels generalizing es t with
  | nil => cases hsel
  | cons hd rest ih =>
    obtain ⟨f0, pgs0⟩ := hd
    rcases List.mem_cons.mp hsel with heq | htl
    · injection heq with hf hp
      subst hf; subst hp
      simp only [estLoop2] at hok
      rw [if_neg hproc] at hok
      simp only [Bind.bind, Except.bind, hcache, openFile, hdisk] at hok
      cases hrest : estLoop2 w mem processed rest with
      | error e => rw [hrest] at hok; cases hok
      | ok pr =>
        obtain ⟨es2, t2⟩ := pr
        rw [hrest] at hok
        simp only [pure, Except.pure, Except.ok.injEq, Prod.mk.injEq] at hok
        obtain ⟨hes, ht⟩ := hok
        rw [← hes]
        exact List.mem_cons_self _ _
    · simp only [estLoop2] at hok
      by_cases hp0 : processed.contains f0
      · rw [if_pos hp0] at hok
        exact ih es t htl hok
      · rw [if_neg hp0] at hok
        simp only [Bind.bind, Except.bind] at hok
        cases halo : alookup f0 mem with
        | none =>
          rw [halo] at hok
          cases hrest : estLoop2 w mem processed rest with
          | error e => rw [hrest] at hok; cases hok
          | ok pr =>
            obtain ⟨es2, t2⟩ := pr
            rw [hrest] at hok
            simp only [pure, Except.pure, Except.ok.injEq, Prod.mk.injEq] at hok
            obtain ⟨hes, ht⟩ := hok
            rw [← hes]
            exact List.mem_cons_of_mem _ (ih es2 t2 htl hrest)
        | some r0 =>
          rw [halo] at hok
          cases hop : openFile w f0 with
          | error e => rw [hop] at hok; cases hok
          | ok raw =>
            rw [hop] at hok
            simp only [Bind.bind, Except.bind] at hok
            cases hrest : estLoop2 w mem processed rest with
            | error e => rw [hrest] at hok; cases hok
            | ok pr =>
              obtain ⟨es2, t2⟩ := pr
              rw [hrest] at hok
              simp only [pure, Except.pure, Except.ok.injEq, Prod.mk.injEq] at hok
              obtain ⟨hes, ht⟩ := hok
              rw [← hes]
              exact List.mem_cons_of_mem _ (ih es2 t2 htl hrest)

/-- The token sum of the first estimation loop is the sum of its
breakdown rows. -/
theorem estLoop1_total (w : World) (mem : Cache)
    (sels : List (String × List Nat)) (files : List String)
    (ps : List String) (es : List EstEntry) (t : Nat)
    (hok : estLoop1 w mem sels files = .ok (ps, es, t)) :
    t = (es.map entryTokens).sum := by
  induction files generalizing ps es t with
  | nil =>
    simp only [estLoop1] at hok
    cases hok
    rfl
  | cons f0 rest ih =>
    simp only [estLoop1, Bind.bind, Except.bind] at hok
    cases halo : alookup f0 mem with
    | none =>
      rw [halo] at hok
      cases hrest : estLoop1 w mem sels rest with
      | error e => rw [hrest] at hok; cases hok
      | ok trip =>
        obtain ⟨ps2, es2, t2⟩ := trip
        rw [hrest] at hok
        cases hok
        simpa [entryTokens] using ih ps2 es2 t2 hrest
    | some r =>
      rw [halo] at hok
      cases hsel : alookup f0 sels with
      | none =>
        rw [hsel] at hok
        cases hrest : estLoop1 w mem sels rest with
        | error e => rw [hrest] at hok; cases hok
        | ok trip =>
          obtain ⟨ps2, es2, t2⟩ := trip
          rw [hrest] at hok
          cases hok
          simpa [entryTokens] using ih ps2 es2 t2 hrest
      | some pgs =>
        rw [hsel] at hok
        cases hop : openFile w f0 with
        | error e => rw [hop] at hok; cases hok
        | ok raw =>
          rw [hop] at hok
          simp only [Bind.bind, Except.bind] at hok
          cases hrest : estLoop1 w mem sels rest with
          | error e => rw [hrest] at hok; cases hok
          | ok trip =>
            obtain ⟨ps2, es2, t2⟩ := trip
            rw [hrest] at hok
            cases hok
            simpa [entryTokens] using ih ps2 es2 t2 hrest

/-- The token sum of the second estimation loop is the sum of its
breakdown rows. -/
theorem estLoop2_total (w : World) (mem : Cache) (processed : List String)
    (sels : List (String × List Nat)) (es : List EstEntry) (t : Nat)
    (hok : estLoop2 w mem processed sels = .ok (es, t)) :
    t = (es.map entryTokens).sum := by
  induction sels generalizing es t with
  | nil =>
    simp only [estLoop2] at hok
    cases hok
    rfl
  | cons hd rest ih =>
    obtain ⟨f0, pgs0⟩ := hd
    simp only [estLoop2] at hok
    by_cases hp0 : processed.contains f0
    · rw [if_pos hp0] at hok
      exact ih es t hok
    · rw [if_neg hp0] at hok
      simp only [Bind.bind, Except.bind] at hok
      cases halo : alookup f0 mem with
      | none =>
        rw [halo] at hok
        cases hrest : estLoop2 w mem processed rest with
        | error e => rw [hrest] at hok; cases hok
        | ok pr =>
          obtain ⟨es2, t2⟩ := pr
          rw [hrest] at hok
          simp only [pure, Except.pure, Except.ok.injEq, Prod.mk.injEq] at hok
          obtain ⟨he, ht⟩ := hok
          subst he; subst ht
          simpa [entryTokens] using ih es2 t2 hrest
      | some r =>
        rw [halo] at hok
        cases hop : openFile w f0 with
        | error e => rw [hop] at hok; cases hok
        | ok raw =>
          rw [hop] at hok
          simp only [Bind.bind, Except.bind] at hok
          cases hrest : estLoop2 w mem processed rest with
          | error e => rw [hrest] at hok; cases hok
          | ok pr =>
            obtain ⟨es2, t2⟩ := pr
            rw [hrest] at hok
            simp only [pure, Except.pure, Except.ok.injEq, Prod.mk.injEq] at hok
            obtain ⟨he, ht⟩ := hok
            subst he; subst ht
            simpa [entryTokens] using ih es2 t2 hrest

/-- Claim C4: token estimation covers selection-only files.  Whenever
`estimateTokens(files, selections)` succeeds, every cached, readable
file that appears as a key of `selections` but not in the `files` list
still contributes: its selected-pages token estimate appears as a row
of the per-file breakdown, and the grand total is exactly the sum of
the breakdown rows (so that estimate is added to the total). -/
theorem spec_c4 (w : World) (mem : Cache) (files : List String)
    (sels : List (String × List Nat)) (f : String) (pgs : List Nat)
    (r : FileRecord) (fd : FileData) (res : EstimateData)
    (hsel : (f, pgs) ∈ sels) (hnotin : f ∉ files)
    (hcache : alookup f mem = some r) (hdisk : alookup f w.files = some fd)
    (hok : estimate_tokens w mem files sels = .ok res) :
    EstEntry.est f (some pgs)
      (pageTokens (extract_pages (cleanContent fd.content)) pgs) ∈ res.files ∧
    res.total_estimated_tokens = (res.files.map entryTokens).sum := by
  cases h1 : estLoop1 w mem sels files with
  | error e => simp [estimate_tokens, Bind.bind, Except.bind, h1] at hok
  | ok trip =>
    obtain ⟨ps, es1, t1⟩ := trip
    cases h2 : estLoop2 w mem ps sels with
    | error e => simp [estimate_tokens, Bind.bind, Except.bind, h1, h2] at hok
    | ok pr =>
      obtain ⟨es2, t2⟩ := pr
      simp only [estimate_tokens, Bind.bind, Except.bind, h1, h2, pure,
        Except.pure, Except.ok.injEq] at hok
      have hps : f ∉ ps := fun hf =>
        hnotin (estLoop1_processed_subset w mem sels files ps es1 t1 h1 hf)
      have hcont : ¬ ps.contains f := by
        intro hc
        exact hps (by simpa using hc)
      constructor
      · rw [← hok]
        simp only [List.mem_append]
        exact Or.inr (estLoop2_mem w mem ps sels f pgs r fd es2 t2 hsel hcont
          hcache hdisk h2)
      · rw [← hok]
        simp only [List.map_append, List.sum_append]
        rw [estLoop1_total w mem sels files ps es1 t1 h1,
          estLoop2_total w mem ps sels es2 t2 h2]

/-- Witness for C4: on the synced state of the page-marked file
`t/p.md`, estimating with an empty `files` list and a selection of
page 1 for that file yields a breakdown containing that selection row
and a total equal to the row sum. -/
theorem spec_c4_witness :
    EstEntry.est "t/p.md" (some [1])
      (pageTokens (extract_pages (cleanContent exPagedContent)) [1]) ∈
        exEstRes.files ∧
    exEstRes.total_estimated_tokens = (exEstRes.files.map entryTokens).sum :=
  spec_c4 exStP.world exStP.mem [] [("t/p.md", [1])] "t/p.md" [1]
    (mkRecord "t/p.md" { mtime := 1, content := exPagedContent })
    { mtime := 1, content := exPagedContent } exEstRes
    (by simp) (by simp) (by rfl) (by rfl) (by rfl)

/-! ### Length bounds for the normalizer and the extractor -/

/-- Unfolding of `subCRLF` at a CRLF pair. -/
theorem subCRLF_crlf (rest : List Char) :
    subCRLF ('\r' :: '\n' :: rest) = '\n' :: subCRLF rest := rfl

/-- Unfolding of `subCRLF` at a non-CRLF head. -/
theorem subCRLF_other (c : Char) (rest : List Char)
    (h : ¬(c = '\r' ∧ rest.head? = some '\n')) :
    subCRLF (c :: rest) = c :: subCRLF rest := by
  rw [subCRLF.eq_def]
  split
  · rename_i r2 heq
    injection heq with h1 h2
    exact absurd ⟨h1, by rw [h2]; rfl⟩ h
  · rename_i c2 r2 hno heq
    injection heq with h1 h2
    subst h1; subst h2
    rfl
  · rename_i heq
    cases heq

/-- CRLF substitution never lengthens the text. -/
theorem subCRLF_length_le : ∀ l : List Char, (subCRLF l).length ≤ l.length
  | [] => Nat.le_refl _
  | [c] => by
    rw [subCRLF_other c [] (by simp)]
    simp [subCRLF]
  | c1 :: c2 :: rest => by
    by_cases h : c1 = '\r' ∧ c2 = '\n'
    · obtain ⟨h1, h2⟩ := h
      subst h1; subst h2
      rw [subCRLF_crlf]
      have := subCRLF_length_le rest
      simp only [List.length_cons]
      omega
    · rw [subCRLF_other c1 (c2 :: rest) (by simpa using h)]
      have := subCRLF_length_le (c2 :: rest)
      simp only [List.length_cons] at this ⊢
      omega
termination_by l => l.length

/-- The run collapser never lengthens the text beyond the pending run. -/
theorem collapseRun_length_le (p : Char → Bool) (f : Nat → List Char)
    (hf : ∀ n, (f n).length ≤ n) :
    ∀ (l : List Char) (k : Nat), (collapseRun p f k l).length ≤ k + l.length := by
  intro l
  induction l with
  | nil => intro k; simpa using hf k
  | cons c rest ih =>
    intro k
    simp only [collapseRun]
    by_cases h : p c
    · simp only [h, if_true, List.length_cons]
      have := ih (k + 1)
      omega
    · simp only [h, Bool.false_eq_true, if_false, List.length_append,
        List.length_cons]
      have h1 := hf k
      have h2 := ih 0
      omega

/-- Stripping never lengthens the text. -/
theorem pstrip_length_le (l : List Char) : (pstrip l).length ≤ l.length := by
  unfold pstrip
  rw [List.length_reverse]
  calc ((l.dropWhile isWS).reverse.dropWhile isWS).length
      ≤ (l.dropWhile isWS).reverse.length := (List.dropWhile_sublist _).length_le
    _ = (l.dropWhile isWS).length := List.length_reverse _
    _ ≤ l.length := (List.dropWhile_sublist _).length_le

/-- Cleaning never lengthens the text: every substitution pass and the
final strip are non-increasing in length. -/
theorem cleanContent_length_le (l : List Char) :
    (cleanContent l).length ≤ l.length := by
  unfold cleanContent
  have hsp : ∀ n, (spBlock n).length ≤ n := by
    intro n; cases n <;> simp [spBlock]
  have hnl : ∀ n, (nlBlock n).length ≤ n := by
    intro n
    by_cases h3 : 3 ≤ n <;> simp [nlBlock, h3] <;> omega
  have hdt : ∀ n, (dotBlock n).length ≤ n := by
    intro n
    by_cases h4 : 4 ≤ n <;> simp [dotBlock, h4] <;> omega
  have hdh : ∀ n, (dashBlock n).length ≤ n := by
    intro n
    by_cases h3 : 3 ≤ n <;> simp [dashBlock, h3] <;> omega
  calc (pstrip (collapseDashes (collapseDots (collapseNewlines
          (collapseSpaces (subCR (subCRLF l))))))).length
      ≤ (collapseDashes (collapseDots (collapseNewlines
          (collapseSpaces (subCR (subCRLF l)))))).length := pstrip_length_le _
    _ ≤ (collapseDots (collapseNewlines (collapseSpaces (subCR (subCRLF l))))).length := by
        simpa using collapseRun_length_le _ _ hdh _ 0
    _ ≤ (collapseNewlines (collapseSpaces (subCR (subCRLF l)))).length := by
        simpa using collapseRun_length_le _ _ hdt _ 0
    _ ≤ (collapseSpaces (subCR (subCRLF l))).length := by
        simpa using collapseRun_length_le _ _ hnl _ 0
    _ ≤ (subCR (subCRLF l)).length := by
        simpa using collapseRun_length_le _ _ hsp _ 0
    _ = (subCRLF l).length := List.length_map _ _
    _ ≤ l.length := subCRLF_length_le l

/-- Exact length of a newline join of a non-empty segment list. -/
theorem joinNl_length_eq : ∀ xs : List (List Char), xs ≠ [] →
    (joinNl xs).length + 1 = (xs.map List.length).sum + xs.length
  | [], h => absurd rfl h
  | [s], _ => by simp [joinNl]
  | s :: r :: rest, _ => by
    have := joinNl_length_eq (r :: rest) (by simp)
    simp only [joinNl, List.length_append, List.length_cons, List.map_cons,
      List.sum_cons] at this ⊢
    omega

/-- Length bound for a newline join of any segment list. -/
theorem joinNl_length_le (xs : List (List Char)) :
    (joinNl xs).length ≤ (xs.map List.length).sum + xs.length - 1 := by
  cases xs with
  | nil => simp [joinNl]
  | cons a tl =>
    have := joinNl_length_eq (a :: tl) (by simp)
    omega

/-- The remainder a marker line leaves behind is no longer than the
line (the marker consumes at least eight characters). -/
theorem lineMarkerRem_length_le (l : List Char) (rem : List Char)
    (h : lineMarkerRem l = some rem) : rem.length ≤ l.length := by
  rw [lineMarkerRem.eq_def] at h
  split at h
  · rename_i d rest
    split at h
    · injection h with h2
      rw [← h2]
      have := (List.dropWhile_sublist (l := rest) Char.isDigit).length_le
      simp only [List.length_cons]
      omega
    · cases h
  · cases h

/-- Unfolding of `splitNl` at a newline. -/
theorem splitNl_nl (rest : List Char) : splitNl ('\n' :: rest) = [] :: splitNl rest := rfl

/-- Unfolding of `splitNl` at a non-newline head. -/
theorem splitNl_other (c : Char) (rest : List Char) (h : ¬ c = '\n') :
    splitNl (c :: rest) =
      match splitNl rest with
      | s :: ss => (c :: s) :: ss
      | [] => [[c]] := by
  rw [splitNl.eq_def]
  split
  · rename_i heq; cases heq
  · rename_i r2 heq
    injection heq with h1 h2
    exact absurd h1 h
  · rename_i c2 r2 hno heq
    injection heq with h1 h2
    subst h1; subst h2
    rfl

/-- The line decomposition is never empty. -/
theorem splitNl_ne_nil (l : List Char) : splitNl l ≠ [] := by
  induction l with
  | nil => simp [splitNl]
  | cons c rest ih =>
    by_cases h : c = '\n'
    · subst h; rw [splitNl_nl]; simp
    · rw [splitNl_other c rest h]
      cases splitNl rest <;> simp

/-- Unfolding of `splitNl` at a non-newline head, with the tail
decomposition given. -/
theorem splitNl_cons_eq (c : Char) (rest : List Char) (s : List Char)
    (ss : List (List Char)) (h : ¬ c = '\n') (hs : splitNl rest = s :: ss) :
    splitNl (c :: rest) = (c :: s) :: ss := by
  rw [splitNl_other c rest h, hs]

/-- Total length accounting of the line decomposition: segment lengths
plus one newline separator between consecutive segments. -/
theorem splitNl_sum (l : List Char) :
    (((splitNl l).map List.length).sum + (splitNl l).length) = l.length + 1 := by
  induction l with
  | nil => simp [splitNl]
  | cons c rest ih =>
    by_cases h : c = '\n'
    · subst h
      rw [splitNl_nl]
      simp only [List.map_cons, List.sum_cons, List.length_cons,
        List.length_nil] at ih ⊢
      omega
    · cases hs : splitNl rest with
      | nil => exact absurd hs (splitNl_ne_nil rest)
      | cons s ss =>
        rw [splitNl_cons_eq c rest s ss h hs]
        rw [hs] at ih
        simp only [List.map_cons, List.sum_cons, List.length_cons] at ih ⊢
        omega

/-- Splitting reassembles to the original content. -/
theorem joinNl_splitNl (l : List Char) : joinNl (splitNl l) = l := by
  have jcons : ∀ (c : Char) (s : List Char) (ss : List (List Char)),
      joinNl ((c :: s) :: ss) = c :: joinNl (s :: ss) := by
    intro c s ss
    cases ss <;> simp [joinNl]
  induction l with
  | nil => simp [splitNl, joinNl]
  | cons c rest ih =>
    by_cases h : c = '\n'
    · subst h
      rw [splitNl_nl]
      cases hs : splitNl rest with
      | nil => exact absurd hs (splitNl_ne_nil rest)
      | cons s ss =>
        rw [hs] at ih
        simp [joinNl, ← ih]
    · cases hs : splitNl rest with
      | nil => exact absurd hs (splitNl_ne_nil rest)
      | cons s ss =>
        rw [splitNl_cons_eq c rest s ss h hs, jcons, ← hs, ih]

/-- Length accounting of the marker split: the fragments never hold
more characters than the accumulated segments and remaining lines
(markers are dropped, separators kept). -/
theorem splitPiecesGo_sum_le (lines : List (List Char)) (segs : List (List Char)) :
    (((splitPiecesGo segs lines).map List.length).sum) ≤
      (segs.map List.length).sum + segs.length +
        ((lines.map List.length).sum + lines.length) - 1 := by
  induction lines generalizing segs with
  | nil =>
    have := joinNl_length_le segs.reverse
    simp only [splitPiecesGo, List.map_cons, List.sum_cons, List.map_nil,
      List.sum_nil, List.length_nil, List.map_reverse, List.sum_reverse,
      List.length_reverse] at this ⊢
    omega
  | cons l rest ih =>
    simp only [splitPiecesGo]
    cases hm : lineMarkerRem l with
    | some rem =>
      have hrem := lineMarkerRem_length_le l rem hm
      have hjoin := joinNl_length_eq (segs.reverse ++ [[]]) (by simp)
      have hih := ih [rem]
      simp only [List.map_append, List.map_reverse, List.sum_append,
        List.sum_reverse, List.map_cons, List.sum_cons, List.map_nil,
        List.sum_nil, List.length_append, List.length_reverse,
        List.length_cons, List.length_nil] at hjoin hih ⊢
      omega
    | none =>
      have hih := ih (l :: segs)
      simp only [List.map_cons, List.sum_cons, List.length_cons] at hih ⊢
      omega

/-- The extracted pages of a text hold at most as many characters in
total as the text itself. -/
theorem extract_pages_sum_le (t : List Char) :
    (((extract_pages t).map List.length).sum) ≤ t.length := by
  unfold extract_pages splitPieces
  have h1 : ((((splitPiecesGo [] (splitNl t)).map pstrip).filter
      (fun p => !p.isEmpty)).map List.length).sum ≤
      (((splitPiecesGo [] (splitNl t)).map pstrip).map List.length).sum := by
    refine List.Sublist.sum_le_sum ?_ (by intro a ha; exact Nat.zero_le a)
    exact ((List.filter_sublist _).map List.length)
  have h2 : ((((splitPiecesGo [] (splitNl t)).map pstrip).map List.length).sum : Nat) ≤
      ((splitPiecesGo [] (splitNl t)).map List.length).sum := by
    rw [List.map_map]
    exact List.sum_le_sum (fun p _ => pstrip_length_le p)
  have h3 := splitPiecesGo_sum_le (splitNl t) []
  have h4 := splitNl_sum t
  simp only [List.map_nil, List.sum_nil, List.length_nil] at h3
  omega

/-! ### Monotonicity of the page-token estimate -/

/-- Reading a list back through `getD` over its index range. -/
theorem getD_range_eq (l : List (List Char)) :
    (List.range l.length).map (fun i => l.getD i []) = l := by
  induction l with
  | nil => simp
  | cons a tl ih =>
    rw [List.length_cons, List.range_succ_eq_map, List.map_cons]
    have hpt : ∀ i ∈ List.range tl.length,
        ((fun i => (a :: tl).getD i []) ∘ (· + 1)) i = tl.getD i [] := by
      intro i _
      simp [List.getD_cons_succ]
    rw [List.map_map, List.map_congr_left hpt, ih]
    simp

/-- Summing quarters term-by-term is at most a quarter of the sum. -/
theorem sum_div_four_le (l : List Nat) :
    (l.map (fun a => a / 4)).sum ≤ l.sum / 4 := by
  induction l with
  | nil => simp
  | cons a tl ih =>
    simp only [List.map_cons, List.sum_cons]
    calc a / 4 + (tl.map (fun a => a / 4)).sum ≤ a / 4 + tl.sum / 4 :=
          Nat.add_le_add_left ih _
      _ ≤ (a + tl.sum) / 4 := Nat.add_div_le_add_div a tl.sum 4

/-- The page-token loop as a sum over the selection. -/
theorem pageTokens_eq_sum (pages : List (List Char)) (sel : List Nat) :
    pageTokens pages sel =
      (sel.map (fun n => if 1 ≤ n ∧ n ≤ pages.length
        then (pages.getD (n - 1) []).length / 4 else 0)).sum := by
  induction sel with
  | nil => rfl
  | cons n rest ih => simp [pageTokens, ih]

/-- For a duplicate-free, in-range page selection, the selected-pages
token estimate is at most a quarter of the total page length. -/
theorem pageTokens_le_sum (pages : List (List Char)) (sel : List Nat)
    (hnd : sel.Nodup) (hrange : ∀ n ∈ sel, 1 ≤ n ∧ n ≤ pages.length) :
    pageTokens pages sel ≤ (pages.map List.length).sum / 4 := by
  rw [pageTokens_eq_sum]
  have hsel : (sel.map (fun n => if 1 ≤ n ∧ n ≤ pages.length
      then (pages.getD (n - 1) []).length / 4 else 0)).sum =
      (sel.map (fun n => (pages.getD (n - 1) []).length / 4)).sum := by
    refine congrArg List.sum (List.map_congr_left ?_)
    intro n hn
    simp [hrange n hn]
  rw [hsel]
  have hidx : (sel.map (fun n => n - 1)).Nodup := by
    refine List.Nodup.map_on ?_ hnd
    intro x hx y hy hxy
    have hx1 := (hrange x hx).1
    have hy1 := (hrange y hy).1
    omega
  have hsub : sel.map (fun n => n - 1) ⊆ List.range pages.length := by
    intro i hi
    obtain ⟨n, hn, hni⟩ := List.mem_map.mp hi
    have := hrange n hn
    rw [List.mem_range]
    omega
  obtain ⟨l2, hperm, hsl⟩ := hidx.subperm hsub
  have e1 : (sel.map (fun n => (pages.getD (n - 1) []).length / 4)).sum =
      ((sel.map (fun n => n - 1)).map (fun i => (pages.getD i []).length / 4)).sum := by
    rw [List.map_map]
    rfl
  have e2 : ((sel.map (fun n => n - 1)).map (fun i => (pages.getD i []).length / 4)).sum =
      (l2.map (fun i => (pages.getD i []).length / 4)).sum :=
    (hperm.map _).sum_eq.symm
  have e3 : (l2.map (fun i => (pages.getD i []).length / 4)).sum ≤
      ((List.range pages.length).map (fun i => (pages.getD i []).length / 4)).sum :=
    List.Sublist.sum_le_sum (hsl.map _) (fun a _ => Nat.zero_le a)
  have e4 : ((List.range pages.length).map (fun i => (pages.getD i []).length / 4)).sum ≤
      ((List.range pages.length).map (fun i => (pages.getD i []).length)).sum / 4 := by
    have := sum_div_four_le ((List.range pages.length).map (fun i => (pages.getD i []).length))
    rw [List.map_map] at this
    exact this
  have e5 : ((List.range pages.length).map (fun i => (pages.getD i []).length)).sum =
      (pages.map List.length).sum := by
    have := congrArg (fun xs => (List.map List.length xs).sum) (getD_range_eq pages)
    simpa [List.map_map] using this
  omega

/-- Claim C5: token estimate monotonicity.  For every file and every
strict subset of its page numbers (the pages of the cleaned current
content, which is the content the cache record was built from), the
selected-pages token estimate computed by `estimateTokens` — the sum
over the subset of each selected page's character count divided by
four — is at most the whole-file estimated token count stored in the
cache record for that file. -/
theorem spec_c5 (path : String) (fd : FileData) (sel : List Nat)
    (hnd : sel.Nodup)
    (hrange : ∀ n ∈ sel, 1 ≤ n ∧ n ≤ (extract_pages (cleanContent fd.content)).length)
    (hstrict : ∃ m, 1 ≤ m ∧ m ≤ (extract_pages (cleanContent fd.content)).length ∧ m ∉ sel) :
    pageTokens (extract_pages (cleanContent fd.content)) sel ≤
      (mkRecord path fd).estimated_tokens := by
  have h1 := pageTokens_le_sum (extract_pages (cleanContent fd.content)) sel hnd hrange
  have h2 := extract_pages_sum_le (cleanContent fd.content)
  have h3 := cleanContent_length_le fd.content
  have h4 : ((extract_pages (cleanContent fd.content)).map List.length).sum / 4 ≤
      fd.content.length / 4 := Nat.div_le_div_right (le_trans h2 h3)
  exact le_trans h1 h4

/-- Witness for C5: on the two-page file, selecting only page 1 (a
strict subset, page 2 is left out) estimates no more tokens than the
whole-file cache estimate. -/
theorem spec_c5_witness :
    pageTokens (extract_pages (cleanContent exPagedContent)) [1] ≤
      (mkRecord "t/p.md" { mtime := 1, content := exPagedContent }).estimated_tokens :=
  spec_c5 "t/p.md" { mtime := 1, content := exPagedContent } [1]
    (by decide) (by decide) ⟨2, by decide, by decide, by decide⟩

/-! ### Core lemmas about run measures -/

/-- The accumulated maximum factors out of the scan. -/
theorem maxRunGo_m (d : Char) : ∀ (l : List Char) (j m : Nat),
    maxRunGo d j m l = max m (maxRunGo d j 0 l) := by
  intro l
  induction l with
  | nil => intro j m; simp only [maxRunGo]; omega
  | cons c rest ih =>
    intro j m
    simp only [maxRunGo]
    by_cases h : c = d
    · simp only [if_pos h]
      exact ih (j + 1) m
    · simp only [if_neg h]
      rw [ih 0 (max m j), ih 0 (max 0 j)]
      omega

/-- The scan result dominates both accumulators. -/
theorem maxRunGo_lb (d : Char) : ∀ (l : List Char) (j m : Nat),
    max m j ≤ maxRunGo d j m l := by
  intro l
  induction l with
  | nil => intro j m; simp [maxRunGo]
  | cons c rest ih =>
    intro j m
    simp only [maxRunGo]
    by_cases h : c = d
    · simp only [if_pos h]
      have := ih (j + 1) m
      omega
    · simp only [if_neg h]
      have := ih 0 (max m j)
      omega

/-- The scan is monotone in both accumulators. -/
theorem maxRunGo_mono (d : Char) : ∀ (l : List Char) (j j2 m m2 : Nat),
    j ≤ j2 → m ≤ m2 → maxRunGo d j m l ≤ maxRunGo d j2 m2 l := by
  intro l
  induction l with
  | nil => intro j j2 m m2 h1 h2; simp only [maxRunGo]; omega
  | cons c rest ih =>
    intro j j2 m m2 h1 h2
    simp only [maxRunGo]
    by_cases h : c = d
    · simp only [if_pos h]
      exact ih (j + 1) (j2 + 1) m m2 (by omega) h2
    · simp only [if_neg h]
      exact ih 0 0 (max m j) (max m2 j2) (le_refl 0) (by omega)

/-- A replicate of the tracked character extends the run in progress. -/
theorem maxRunGo_repl (d : Char) : ∀ (r : Nat) (xs : List Char) (j m : Nat),
    maxRunGo d j m (List.replicate r d ++ xs) = maxRunGo d (j + r) m xs := by
  intro r
  induction r with
  | zero => intro xs j m; simp
  | succ r2 ih =>
    intro xs j m
    rw [List.replicate_succ, List.cons_append]
    have hstep : maxRunGo d j m (d :: (List.replicate r2 d ++ xs)) =
        maxRunGo d (j + 1) m (List.replicate r2 d ++ xs) := by
      simp [maxRunGo]
    rw [hstep, ih xs (j + 1) m, show j + 1 + r2 = j + (r2 + 1) from by omega]

/-- A non-empty block free of the tracked character flushes the run in
progress. -/
theorem maxRunGo_blk (d : Char) : ∀ (blk : List Char), blk ≠ [] →
    (∀ x ∈ blk, ¬ x = d) → ∀ (xs : List Char) (j m : Nat),
    maxRunGo d j m (blk ++ xs) = maxRunGo d 0 (max m j) xs := by
  intro blk
  induction blk with
  | nil => intro h; exact absurd rfl h
  | cons c tl ih =>
    intro _ hfree xs j m
    have hcd : ¬ c = d := hfree c (List.mem_cons_self _ _)
    rw [List.cons_append]
    simp only [maxRunGo, if_neg hcd]
    cases htl : tl with
    | nil => simp
    | cons c2 tl2 =>
      rw [← htl, ih (by rw [htl]; simp)
        (fun x hx => hfree x (List.mem_cons_of_mem c hx)) xs 0 (max m j)]
      congr 1
      omega

/-- Fixpoint of the run collapser: when every maximal run of the
collapsed character has length at most `b` and replacements below `b`
reproduce the run, the collapser is the identity. -/
theorem collapseRun_fix (p : Char → Bool) (f : Nat → List Char) (ch : Char) (b : Nat)
    (hch : p ch = true) (hf : ∀ n, n ≤ b → f n = List.replicate n ch) :
    ∀ (l : List Char) (k : Nat), maxRunGo ch k 0 l ≤ b →
      (∀ c ∈ l, p c = true → c = ch) →
      collapseRun p f k l = List.replicate k ch ++ l := by
  intro l
  induction l with
  | nil =>
    intro k hk _
    simp only [maxRunGo] at hk
    simp only [collapseRun]
    rw [hf k (by omega)]
    simp
  | cons c rest ih =>
    intro k hk hcc
    simp only [collapseRun]
    by_cases hpc : p c
    · have hceq : c = ch := hcc c (List.mem_cons_self _ _) hpc
      subst hceq
      rw [if_pos hpc]
      simp only [maxRunGo, if_pos rfl] at hk
      rw [ih (k + 1) hk (fun c2 h2 h3 => hcc c2 (List.mem_cons_of_mem c h2) h3)]
      rw [List.replicate_succ']
      simp
    · rw [if_neg hpc]
      have hcne : ¬ c = ch := fun he => hpc (he ▸ hch)
      simp only [maxRunGo, if_neg hcne] at hk
      rw [maxRunGo_m ch rest 0 (max 0 k)] at hk
      have hk2 : maxRunGo ch 0 0 rest ≤ b := by omega
      have hkb : k ≤ b := by omega
      rw [ih 0 hk2 (fun c2 h2 h3 => hcc c2 (List.mem_cons_of_mem c h2) h3)]
      rw [hf k hkb]
      simp

/-- Every character of the collapser output is a non-collapsed input
character or comes from a replacement block. -/
theorem collapseRun_mem (p : Char → Bool) (f : Nat → List Char) :
    ∀ (l : List Char) (k : Nat) (c : Char), c ∈ collapseRun p f k l →
    (c ∈ l ∧ p c = false) ∨ ∃ n, c ∈ f n := by
  intro l
  induction l with
  | nil =>
    intro k c hc
    exact Or.inr ⟨k, by simpa [collapseRun] using hc⟩
  | cons c0 rest ih =>
    intro k c hc
    simp only [collapseRun] at hc
    by_cases hp : p c0
    · rw [if_pos hp] at hc
      rcases ih (k + 1) c hc with ⟨h1, h2⟩ | h3
      · exact Or.inl ⟨List.mem_cons_of_mem _ h1, h2⟩
      · exact Or.inr h3
    · rw [if_neg hp] at hc
      rcases List.mem_append.mp hc with hf2 | hcr
      · exact Or.inr ⟨k, hf2⟩
      · rcases List.mem_cons.mp hcr with heq | hrest
        · subst heq
          exact Or.inl ⟨List.mem_cons_self _ _, by simpa using hp⟩
        · rcases ih 0 c hrest with ⟨h1, h2⟩ | h3
          · exact Or.inl ⟨List.mem_cons_of_mem _ h1, h2⟩
          · exact Or.inr h3

/-- Collapsing one pattern cannot create a longer run of an unrelated
character `d`: the collapsed character is not `d`, the replacement
blocks are non-empty (for non-empty runs) and free of `d`. -/
theorem collapseRun_runPres (p : Char → Bool) (f : Nat → List Char) (d : Char)
    (hpd : p d = false) (hf0 : f 0 = [])
    (hfne : ∀ n, 1 ≤ n → f n ≠ []) (hfd : ∀ n c, c ∈ f n → ¬ c = d) :
    ∀ (l : List Char) (k j m : Nat),
      maxRunGo d j m (collapseRun p f k l) ≤
        if k = 0 then maxRunGo d j m l else max (max m j) (maxRun d l) := by
  intro l
  induction l with
  | nil =>
    intro k j m
    by_cases hk : k = 0
    · subst hk
      simp [collapseRun, hf0]
    · rw [if_neg hk]
      simp only [collapseRun]
      rw [show (f k) = f k ++ [] from (List.append_nil _).symm,
        maxRunGo_blk d (f k) (hfne k (Nat.one_le_iff_ne_zero.mpr hk)) (hfd k) [] j m]
      simp [maxRunGo, maxRun]
  | cons c rest ih =>
    intro k j m
    simp only [collapseRun]
    by_cases hpc : p c
    · rw [if_pos hpc]
      have hcd : ¬ c = d := fun he => by rw [he, hpd] at hpc; cases hpc
      have hih := ih (k + 1) j m
      rw [if_neg (Nat.succ_ne_zero k)] at hih
      by_cases hk : k = 0
      · subst hk
        rw [if_pos rfl]
        simp only [maxRunGo, if_neg hcd]
        rw [maxRunGo_m d rest 0 (max m j)]
        exact hih
      · rw [if_neg hk]
        have hrw : maxRun d (c :: rest) = maxRun d rest := by
          simp [maxRun, maxRunGo, hcd]
        rw [hrw]
        exact hih
    · rw [if_neg hpc]
      by_cases hk : k = 0
      · subst hk
        rw [hf0, List.nil_append, if_pos rfl]
        by_cases hcd : c = d
        · simp only [maxRunGo, if_pos hcd]
          have hih := ih 0 (j + 1) m
          rw [if_pos rfl] at hih
          exact hih
        · simp only [maxRunGo, if_neg hcd]
          have hih := ih 0 0 (max m j)
          rw [if_pos rfl] at hih
          exact hih
      · rw [if_neg hk]
        rw [maxRunGo_blk d (f k) (hfne k (Nat.one_le_iff_ne_zero.mpr hk)) (hfd k) _ j m]
        by_cases hcd : c = d
        · simp only [maxRunGo, if_pos hcd]
          have hih := ih 0 1 (max m j)
          rw [if_pos rfl] at hih
          refine le_trans hih ?_
          rw [maxRunGo_m d rest 1 (max m j)]
          have hrw : maxRun d (c :: rest) = maxRunGo d 1 0 rest := by
            simp [maxRun, maxRunGo, hcd]
          rw [hrw]
        · simp only [maxRunGo, if_neg hcd]
          have hih := ih 0 0 (max (max m j) 0)
          rw [if_pos rfl] at hih
          refine le_trans hih ?_
          rw [maxRunGo_m d rest 0 (max (max m j) 0)]
          have hrw : maxRun d (c :: rest) = maxRun d rest := by
            simp [maxRun, maxRunGo, hcd]
          rw [hrw]
          simp only [maxRun]
          rw [maxRunGo_m d rest 0 0]
          omega

/-- Collapsing a pattern at the top level never increases the longest
run of an unrelated character. -/
theorem collapseRun_runPres0 (p : Char → Bool) (f : Nat → List Char) (d : Char)
    (hpd : p d = false) (hf0 : f 0 = [])
    (hfne : ∀ n, 1 ≤ n → f n ≠ []) (hfd : ∀ n c, c ∈ f n → ¬ c = d)
    (l : List Char) : maxRun d (collapseRun p f 0 l) ≤ maxRun d l := by
  have h := collapseRun_runPres p f d hpd hf0 hfne hfd l 0 0 0
  rw [if_pos rfl] at h
  exact h

/-- When every replacement block is a bounded run of the collapsed
character or a non-empty block free of it, the collapser output has no
run of that character longer than the bound. -/
theorem collapseRun_runEst (p : Char → Bool) (f : Nat → List Char) (ch : Char) (B : Nat)
    (hch : p ch = true)
    (hblk : ∀ n, (∃ r, r ≤ B ∧ f n = List.replicate r ch) ∨
      (f n ≠ [] ∧ ∀ c ∈ f n, ¬ c = ch)) :
    ∀ (l : List Char) (k m : Nat),
      maxRunGo ch 0 m (collapseRun p f k l) ≤ max m B := by
  intro l
  induction l with
  | nil =>
    intro k m
    simp only [collapseRun]
    rcases hblk k with ⟨r, hr, hfr⟩ | ⟨hne, hfree⟩
    · rw [hfr, show List.replicate r ch = List.replicate r ch ++ [] from
        (List.append_nil _).symm, maxRunGo_repl]
      simp only [maxRunGo]
      omega
    · rw [show (f k) = f k ++ [] from (List.append_nil _).symm,
        maxRunGo_blk ch (f k) hne hfree [] 0 m]
      simp only [maxRunGo]
      omega
  | cons c rest ih =>
    intro k m
    simp only [collapseRun]
    by_cases hp : p c
    · rw [if_pos hp]
      exact ih (k + 1) m
    · rw [if_neg hp]
      have hcch : ¬ c = ch := fun he => hp (he ▸ hch)
      rcases hblk k with ⟨r, hr, hfr⟩ | ⟨hne, hfree⟩
      · rw [hfr, maxRunGo_repl]
        simp only [maxRunGo, if_neg hcch]
        have h1 := ih 0 (max m (0 + r))
        have h2 : max (max m (0 + r)) B ≤ max m B := by omega
        exact le_trans h1 h2
      · rw [maxRunGo_blk ch (f k) hne hfree _ 0 m]
        simp only [maxRunGo, if_neg hcch]
        have h0 : max (max m 0) 0 = m := by omega
        rw [h0]
        exact ih 0 m

/-! ### Strip lemmas -/

/-- The trailing strip is a prefix of the original. -/
theorem dropTrail_prefixOf (l : List Char) : dropTrail l <+: l := by
  unfold dropTrail
  conv_rhs => rw [← List.reverse_reverse l]
  exact List.reverse_prefix.mpr (List.dropWhile_suffix isWS)

/-- `pstrip` is the leading strip followed by the trailing strip. -/
theorem pstrip_eq (l : List Char) : pstrip l = dropTrail (dropLead l) := rfl

/-- Stripping yields a subset of the characters. -/
theorem pstrip_subset (l : List Char) : pstrip l ⊆ l := by
  rw [pstrip_eq]
  exact fun x hx =>
    (List.dropWhile_suffix isWS).subset ((dropTrail_prefixOf (dropLead l)).subset hx)

/-- A scan of a prefix is bounded by the scan of the whole. -/
theorem maxRunGo_prefixOf (d : Char) : ∀ (xs ys : List Char) (j m : Nat),
    maxRunGo d j m xs ≤ maxRunGo d j m (xs ++ ys) := by
  intro xs
  induction xs with
  | nil => intro ys j m; simpa [maxRunGo] using maxRunGo_lb d ys j m
  | cons c rest ih =>
    intro ys j m
    rw [List.cons_append]
    simp only [maxRunGo]
    by_cases h : c = d
    · simp only [if_pos h]
      exact ih ys (j + 1) m
    · simp only [if_neg h]
      exact ih ys 0 (max m j)

/-- The run measure is monotone under prefix. -/
theorem maxRun_prefix_le (d : Char) (l1 l2 : List Char) (h : l1 <+: l2) :
    maxRun d l1 ≤ maxRun d l2 := by
  obtain ⟨t, rfl⟩ := h
  exact maxRunGo_prefixOf d l1 t 0 0

/-- The run measure is monotone under cons. -/
theorem maxRun_cons_le (d : Char) (c : Char) (l : List Char) :
    maxRun d l ≤ maxRun d (c :: l) := by
  unfold maxRun
  simp only [maxRunGo]
  by_cases h : c = d
  · simp only [if_pos h]
    exact maxRunGo_mono d l 0 1 0 0 (by omega) (le_refl 0)
  · simp only [if_neg h]
    rw [show max 0 0 = 0 from rfl]

/-- The run measure is monotone under suffix. -/
theorem maxRun_suffix_le (d : Char) (l1 l2 : List Char) (h : l1 <:+ l2) :
    maxRun d l1 ≤ maxRun d l2 := by
  obtain ⟨t, rfl⟩ := h
  induction t with
  | nil => simp
  | cons c t2 ih =>
    rw [List.cons_append]
    exact le_trans ih (maxRun_cons_le d c (t2 ++ l1))

/-- Stripping never lengthens any character run. -/
theorem pstrip_maxRun_le (d : Char) (l : List Char) :
    maxRun d (pstrip l) ≤ maxRun d l := by
  rw [pstrip_eq]
  refine le_trans (maxRun_prefix_le d _ _ (dropTrail_prefixOf (dropLead l))) ?_
  exact maxRun_suffix_le d _ _ (List.dropWhile_suffix isWS)

/-- Stripping is idempotent (Python `s.strip().strip() == s.strip()`). -/
theorem pstrip_idem (l : List Char) : pstrip (pstrip l) = pstrip l := by
  have dlid : ∀ x : List Char, dropLead (dropLead x) = dropLead x := fun x =>
    List.dropWhile_idempotent isWS x
  have dtid : ∀ x : List Char, dropTrail (dropTrail x) = dropTrail x := by
    intro x
    unfold dropTrail
    rw [List.reverse_reverse, List.dropWhile_idempotent]
  have dlt : ∀ x : List Char, dropLead x = x → dropLead (dropTrail x) = dropTrail x := by
    intro x hx
    cases hdt : dropTrail x with
    | nil => simp [dropLead]
    | cons c rest =>
      obtain ⟨t, hxeq⟩ := dropTrail_prefixOf x
      rw [hdt] at hxeq
      have hc : isWS c = false := by
        by_cases hb : isWS c = true
        · exfalso
          rw [← hxeq, List.cons_append] at hx
          unfold dropLead at hx
          rw [List.dropWhile_cons, if_pos hb] at hx
          have hlen := congrArg List.length hx
          have hle := (List.dropWhile_sublist (l := rest ++ t) isWS).length_le
          simp only [List.length_cons] at hlen
          omega
        · exact Bool.eq_false_iff.mpr hb
      unfold dropLead
      rw [List.dropWhile_cons, hc]
      simp
  calc dropTrail (dropLead (dropTrail (dropLead l)))
      = dropTrail (dropTrail (dropLead l)) := by rw [dlt (dropLead l) (dlid l)]
    _ = dropTrail (dropLead l) := dtid _

/-! ### Per-pass facts used for idempotence -/

/-- Characters absent from the input and from every replacement block
are absent from the collapser output. -/
theorem collapseRun_notMem (p : Char → Bool) (f : Nat → List Char) (a : Char)
    (hblocks : ∀ n, a ∉ f n) (l : List Char) (hl : a ∉ l) :
    a ∉ collapseRun p f 0 l := by
  intro hmem
  rcases collapseRun_mem p f l 0 a hmem with ⟨h1, _⟩ | ⟨n, h2⟩
  · exact hl h1
  · exact hblocks n h2

/-- CR substitution removes every carriage return. -/
theorem subCR_noCR (l : List Char) : '\r' ∉ subCR l := by
  intro hm
  obtain ⟨c, _, heq⟩ := List.mem_map.mp hm
  by_cases hc : c = '\r' <;> simp [hc] at heq

/-- CRLF substitution is the identity on CR-free text. -/
theorem subCRLF_fix : ∀ l : List Char, '\r' ∉ l → subCRLF l = l
  | [], _ => rfl
  | [c], _ => by
    rw [subCRLF_other c [] (by simp)]
    rfl
  | c1 :: c2 :: rest, h => by
    have h1 : ¬ c1 = '\r' := fun he => h (he ▸ List.mem_cons_self _ _)
    rw [subCRLF_other c1 (c2 :: rest) (by simp [h1])]
    rw [subCRLF_fix (c2 :: rest) (fun hm => h (List.mem_cons_of_mem _ hm))]
termination_by l => l.length

/-- CR substitution is the identity on CR-free text. -/
theorem subCR_fix (l : List Char) (h : '\r' ∉ l) : subCR l = l := by
  induction l with
  | nil => rfl
  | cons c rest ih =>
    have hc : ¬ c = '\r' := fun he => h (he ▸ List.mem_cons_self _ _)
    have ih2 := ih (fun hm => h (List.mem_cons_of_mem _ hm))
    simp only [subCR, List.map_cons] at ih2 ⊢
    rw [if_neg hc]
    rw [show (List.map (fun c => if c = '\r' then '\n' else c) rest) = rest from ih2]

/-- Space collapsing is the identity when there is no tab and no double
space. -/
theorem collapseSpaces_fix (l : List Char) (h1 : '\t' ∉ l)
    (h2 : maxRun ' ' l ≤ 1) : collapseSpaces l = l := by
  have hf : ∀ n, n ≤ 1 → spBlock n = List.replicate n ' ' := by
    intro n hn
    interval_cases n <;> rfl
  have hcc : ∀ c ∈ l, isHT c = true → c = ' ' := by
    intro c hc hht
    simp only [isHT, Bool.or_eq_true, decide_eq_true_eq] at hht
    rcases hht with h | h
    · exact h
    · exact absurd (h ▸ hc) h1
  have := collapseRun_fix isHT spBlock ' ' 1 (by decide) hf l 0
    (by simpa [maxRun] using h2) hcc
  simpa [collapseSpaces] using this

/-- Newline collapsing is the identity when no run exceeds two. -/
theorem collapseNewlines_fix (l : List Char) (h : maxRun '\n' l ≤ 2) :
    collapseNewlines l = l := by
  have hf : ∀ n, n ≤ 2 → nlBlock n = List.replicate n '\n' := by
    intro n hn
    unfold nlBlock
    rw [if_neg (by omega)]
  have hcc : ∀ c ∈ l, (fun c => decide (c = '\n')) c = true → c = '\n' := by
    intro c _ hd
    exact of_decide_eq_true hd
  have := collapseRun_fix (fun c => decide (c = '\n')) nlBlock '\n' 2 (by decide) hf l 0
    (by simpa [maxRun] using h) hcc
  simpa [collapseNewlines] using this

/-- Period collapsing is the identity when no run exceeds three. -/
theorem collapseDots_fix (l : List Char) (h : maxRun '.' l ≤ 3) :
    collapseDots l = l := by
  have hf : ∀ n, n ≤ 3 → dotBlock n = List.replicate n '.' := by
    intro n hn
    unfold dotBlock
    rw [if_neg (by omega)]
  have hcc : ∀ c ∈ l, (fun c => decide (c = '.')) c = true → c = '.' := by
    intro c _ hd
    exact of_decide_eq_true hd
  have := collapseRun_fix (fun c => decide (c = '.')) dotBlock '.' 3 (by decide) hf l 0
    (by simpa [maxRun] using h) hcc
  simpa [collapseDots] using this

/-- Hyphen collapsing is the identity when no run exceeds three (a run
of exactly three is rewritten to itself). -/
theorem collapseDashes_fix (l : List Char) (h : maxRun '-' l ≤ 3) :
    collapseDashes l = l := by
  have hf : ∀ n, n ≤ 3 → dashBlock n = List.replicate n '-' := by
    intro n hn
    unfold dashBlock
    by_cases h3 : 3 ≤ n
    · have hn3 : n = 3 := by omega
      subst hn3
      rfl
    · rw [if_neg h3]
  have hcc : ∀ c ∈ l, (fun c => decide (c = '-')) c = true → c = '-' := by
    intro c _ hd
    exact of_decide_eq_true hd
  have := collapseRun_fix (fun c => decide (c = '-')) dashBlock '-' 3 (by decide) hf l 0
    (by simpa [maxRun] using h) hcc
  simpa [collapseDashes] using this

/-- Space collapsing leaves no run of two spaces. -/
theorem collapseSpaces_spaceRun (l : List Char) :
    maxRun ' ' (collapseSpaces l) ≤ 1 := by
  have hblk : ∀ n, (∃ r, r ≤ 1 ∧ spBlock n = List.replicate r ' ') ∨
      (spBlock n ≠ [] ∧ ∀ c ∈ spBlock n, ¬ c = ' ') := by
    intro n
    left
    by_cases hn : n = 0
    · exact ⟨0, by omega, by simp [spBlock, hn]⟩
    · exact ⟨1, by omega, by simp [spBlock, hn]⟩
  have := collapseRun_runEst isHT spBlock ' ' 1 (by decide) hblk l 0 0
  simpa [collapseSpaces, maxRun] using this

/-- Space collapsing leaves no tab. -/
theorem collapseSpaces_noTab (l : List Char) : '\t' ∉ collapseSpaces l := by
  intro hm
  rcases collapseRun_mem isHT spBlock l 0 '\t' hm with ⟨_, h2⟩ | ⟨n, h3⟩
  · simp [isHT] at h2
  · revert h3
    by_cases hn : n = 0 <;> simp [spBlock, hn]

/-- Newline collapsing leaves no run of three newlines. -/
theorem collapseNewlines_nlRun (l : List Char) :
    maxRun '\n' (collapseNewlines l) ≤ 2 := by
  have hblk : ∀ n, (∃ r, r ≤ 2 ∧ nlBlock n = List.replicate r '\n') ∨
      (nlBlock n ≠ [] ∧ ∀ c ∈ nlBlock n, ¬ c = '\n') := by
    intro n
    left
    unfold nlBlock
    by_cases hn : 3 ≤ n
    · exact ⟨2, by omega, by rw [if_pos hn]; rfl⟩
    · exact ⟨n, by omega, by rw [if_neg hn]⟩
  have := collapseRun_runEst (fun c => decide (c = '\n')) nlBlock '\n' 2
    (by decide) hblk l 0 0
  simpa [collapseNewlines, maxRun] using this

/-- Period collapsing leaves no run of four periods. -/
theorem collapseDots_dotRun (l : List Char) :
    maxRun '.' (collapseDots l) ≤ 3 := by
  have hblk : ∀ n, (∃ r, r ≤ 3 ∧ dotBlock n = List.replicate r '.') ∨
      (dotBlock n ≠ [] ∧ ∀ c ∈ dotBlock n, ¬ c = '.') := by
    intro n
    unfold dotBlock
    by_cases hn : 4 ≤ n
    · right
      rw [if_pos hn]
      refine ⟨by simp, ?_⟩
      intro c hc
      simp only [List.mem_singleton] at hc
      subst hc
      decide
    · left
      exact ⟨n, by omega, by rw [if_neg hn]⟩
  have := collapseRun_runEst (fun c => decide (c = '.')) dotBlock '.' 3
    (by decide) hblk l 0 0
  simpa [collapseDots, maxRun] using this

/-- Hyphen collapsing leaves no run of four hyphens. -/
theorem collapseDashes_dashRun (l : List Char) :
    maxRun '-' (collapseDashes l) ≤ 3 := by
  have hblk : ∀ n, (∃ r, r ≤ 3 ∧ dashBlock n = List.replicate r '-') ∨
      (dashBlock n ≠ [] ∧ ∀ c ∈ dashBlock n, ¬ c = '-') := by
    intro n
    left
    unfold dashBlock
    by_cases hn : 3 ≤ n
    · exact ⟨3, by omega, by rw [if_pos hn]; rfl⟩
    · exact ⟨n, by omega, by rw [if_neg hn]⟩
  have := collapseRun_runEst (fun c => decide (c = '-')) dashBlock '-' 3
    (by decide) hblk l 0 0
  simpa [collapseDashes, maxRun] using this

/-- Newline collapsing does not increase runs of other characters. -/
theorem collapseNewlines_pres (d : Char) (hd : ¬ d = '\n') (l : List Char) :
    maxRun d (collapseNewlines l) ≤ maxRun d l := by
  refine collapseRun_runPres0 _ nlBlock d (by simp [hd]) (by rfl) ?_ ?_ l
  · intro n h1
    unfold nlBlock
    by_cases hn : 3 ≤ n
    · simp [hn]
    · rw [if_neg hn]
      simp only [ne_eq, List.replicate_eq_nil]
      omega
  · intro n c hc he
    subst he
    unfold nlBlock at hc
    by_cases hn : 3 ≤ n
    · rw [if_pos hn] at hc
      simp only [List.mem_cons, List.not_mem_nil, or_false] at hc
      rcases hc with h | h <;> exact hd h
    · rw [if_neg hn] at hc
      exact hd (List.eq_of_mem_replicate hc)

/-- Period collapsing does not increase runs of characters other than
the period and the ellipsis. -/
theorem collapseDots_pres (d : Char) (hd1 : ¬ d = '.') (hd2 : ¬ d = '…') (l : List Char) :
    maxRun d (collapseDots l) ≤ maxRun d l := by
  refine collapseRun_runPres0 _ dotBlock d (by simp [hd1]) (by rfl) ?_ ?_ l
  · intro n h1
    unfold dotBlock
    by_cases hn : 4 ≤ n
    · simp [hn]
    · rw [if_neg hn]
      simp only [ne_eq, List.replicate_eq_nil]
      omega
  · intro n c hc he
    subst he
    unfold dotBlock at hc
    by_cases hn : 4 ≤ n
    · rw [if_pos hn] at hc
      simp only [List.mem_singleton] at hc
      exact hd2 hc
    · rw [if_neg hn] at hc
      exact hd1 (List.eq_of_mem_replicate hc)

/-- Hyphen collapsing does not increase runs of other characters. -/
theorem collapseDashes_pres (d : Char) (hd : ¬ d = '-') (l : List Char) :
    maxRun d (collapseDashes l) ≤ maxRun d l := by
  refine collapseRun_runPres0 _ dashBlock d (by simp [hd]) (by rfl) ?_ ?_ l
  · intro n h1
    unfold dashBlock
    by_cases hn : 3 ≤ n
    · simp [hn]
    · rw [if_neg hn]
      simp only [ne_eq, List.replicate_eq_nil]
      omega
  · intro n c hc he
    subst he
    unfold dashBlock at hc
    by_cases hn : 3 ≤ n
    · rw [if_pos hn] at hc
      simp only [List.mem_cons, List.not_mem_nil, or_false] at hc
      rcases hc with h | h | h <;> exact hd h
    · rw [if_neg hn] at hc
      exact hd (List.eq_of_mem_replicate hc)

/-- Space collapsing does not introduce characters other than spaces. -/
theorem collapseSpaces_notMem (a : Char) (ha : ¬ a = ' ') (l : List Char)
    (hl : a ∉ l) : a ∉ collapseSpaces l := by
  refine collapseRun_notMem _ spBlock a ?_ l hl
  intro n
  by_cases hn : n = 0 <;> simp [spBlock, hn, ha]

/-- Newline collapsing does not introduce characters other than
newlines. -/
theorem collapseNewlines_notMem (a : Char) (ha : ¬ a = '\n') (l : List Char)
    (hl : a ∉ l) : a ∉ collapseNewlines l := by
  refine collapseRun_notMem _ nlBlock a ?_ l hl
  intro n
  unfold nlBlock
  by_cases hn : 3 ≤ n
  · simp [hn, ha]
  · rw [if_neg hn]
    intro hm
    exact ha (List.eq_of_mem_replicate hm)

/-- Period collapsing introduces only periods and the ellipsis. -/
theorem collapseDots_notMem (a : Char) (ha1 : ¬ a = '.') (ha2 : ¬ a = '…')
    (l : List Char) (hl : a ∉ l) : a ∉ collapseDots l := by
  refine collapseRun_notMem _ dotBlock a ?_ l hl
  intro n
  unfold dotBlock
  by_cases hn : 4 ≤ n
  · simp [hn, ha2]
  · rw [if_neg hn]
    intro hm
    exact ha1 (List.eq_of_mem_replicate hm)

/-- Hyphen collapsing does not introduce characters other than
hyphens. -/
theorem collapseDashes_notMem (a : Char) (ha : ¬ a = '-') (l : List Char)
    (hl : a ∉ l) : a ∉ collapseDashes l := by
  refine collapseRun_notMem _ dashBlock a ?_ l hl
  intro n
  unfold dashBlock
  by_cases hn : 3 ≤ n
  · simp [hn, ha]
  · rw [if_neg hn]
    intro hm
    exact ha (List.eq_of_mem_replicate hm)

/-! ### Invariants of cleaned content -/

/-- Cleaned content holds no carriage return. -/
theorem cleanContent_noCR (s : List Char) : '\r' ∉ cleanContent s := by
  intro hm
  have h6 := pstrip_subset _ hm
  exact collapseDashes_notMem '\r' (by decide) _
    (collapseDots_notMem '\r' (by decide) (by decide) _
      (collapseNewlines_notMem '\r' (by decide) _
        (collapseSpaces_notMem '\r' (by decide) _ (subCR_noCR _)))) h6

/-- Cleaned content holds no tab. -/
theorem cleanContent_noTab (s : List Char) : '\t' ∉ cleanContent s := by
  intro hm
  have h6 := pstrip_subset _ hm
  exact collapseDashes_notMem '\t' (by decide) _
    (collapseDots_notMem '\t' (by decide) (by decide) _
      (collapseNewlines_notMem '\t' (by decide) _
        (collapseSpaces_noTab _))) h6

/-- Cleaned content has no double space. -/
theorem cleanContent_spaceRun (s : List Char) :
    maxRun ' ' (cleanContent s) ≤ 1 := by
  refine le_trans (pstrip_maxRun_le ' ' _) ?_
  refine le_trans (collapseDashes_pres ' ' (by decide) _) ?_
  refine le_trans (collapseDots_pres ' ' (by decide) (by decide) _) ?_
  refine le_trans (collapseNewlines_pres ' ' (by decide) _) ?_
  exact collapseSpaces_spaceRun _

/-- Cleaned content has no triple newline. -/
theorem cleanContent_nlRun (s : List Char) :
    maxRun '\n' (cleanContent s) ≤ 2 := by
  refine le_trans (pstrip_maxRun_le '\n' _) ?_
  refine le_trans (collapseDashes_pres '\n' (by decide) _) ?_
  refine le_trans (collapseDots_pres '\n' (by decide) (by decide) _) ?_
  exact collapseNewlines_nlRun _

/-- Cleaned content has no run of four periods. -/
theorem cleanContent_dotRun (s : List Char) :
    maxRun '.' (cleanContent s) ≤ 3 := by
  refine le_trans (pstrip_maxRun_le '.' _) ?_
  refine le_trans (collapseDashes_pres '.' (by decide) _) ?_
  exact collapseDots_dotRun _

/-- Cleaned content has no run of four hyphens. -/
theorem cleanContent_dashRun (s : List Char) :
    maxRun '-' (cleanContent s) ≤ 3 := by
  refine le_trans (pstrip_maxRun_le '-' _) ?_
  exact collapseDashes_dashRun _

/-- Cleaned content is already stripped. -/
theorem cleanContent_stripped (s : List Char) :
    pstrip (cleanContent s) = cleanContent s :=
  pstrip_idem _

/-- Claim C6: the content normalizer — CRLF/CR normalization,
horizontal-whitespace collapsing, three-plus-newline collapsing,
four-plus-period collapsing, three-plus-hyphen collapsing, and final
trim, applied in source order — is idempotent: re-applying it to
already-cleaned content yields the same content.  (It is a pure
deterministic function by construction: `cleanContent` is a function
of its input alone, with no state.) -/
theorem spec_c6 (s : List Char) :
    cleanContent (cleanContent s) = cleanContent s := by
  have e1 := cleanContent_noCR s
  have e2 := cleanContent_noTab s
  have e3 := cleanContent_spaceRun s
  have e4 := cleanContent_nlRun s
  have e5 := cleanContent_dotRun s
  have e6 := cleanContent_dashRun s
  rw [show cleanContent (cleanContent s) =
      pstrip (collapseDashes (collapseDots (collapseNewlines
        (collapseSpaces (subCR (subCRLF (cleanContent s))))))) from rfl]
  rw [subCRLF_fix _ e1, subCR_fix _ e1, collapseSpaces_fix _ e2 e3,
    collapseNewlines_fix _ e4, collapseDots_fix _ e5, collapseDashes_fix _ e6,
    cleanContent_stripped]

/-! ### Marker-free page extraction (claim C10) -/

/-- When no line is a page marker, the fragment walker returns a single
fragment: everything joined back together. -/
theorem splitPiecesGo_noMarker (ls : List (List Char)) (segs : List (List Char))
    (h : ∀ l ∈ ls, lineMarkerRem l = none) :
    splitPiecesGo segs ls = [joinNl (segs.reverse ++ ls)] := by
  induction ls generalizing segs with
  | nil => simp [splitPiecesGo]
  | cons l rest ih =>
    have hl : lineMarkerRem l = none := h l (List.mem_cons_self _ _)
    have hrest : ∀ x ∈ rest, lineMarkerRem x = none :=
      fun x hx => h x (List.mem_cons_of_mem _ hx)
    simp only [splitPiecesGo, hl]
    rw [ih (l :: segs) hrest]
    simp

/-- A zero marker count says exactly that no line matches the marker
pattern. -/
theorem countPageMarkers_zero_iff (t : List Char) :
    countPageMarkers t = 0 ↔ ∀ l ∈ splitNl t, lineMarkerRem l = none := by
  unfold countPageMarkers
  rw [List.length_eq_zero, List.filter_eq_nil]
  constructor <;> intro h l hl
  · have h2 := h l hl
    cases hlm : lineMarkerRem l with
    | none => rfl
    | some rem => rw [hlm] at h2; simp at h2
  · simp [h l hl]

/-- The page extractor on non-empty, already-stripped, marker-free
content returns exactly that content as the single page. -/
theorem extract_pages_noMarker (t : List Char) (hne : t ≠ [])
    (hm : countPageMarkers t = 0) (hs : pstrip t = t) :
    extract_pages t = [t] := by
  have hall := (countPageMarkers_zero_iff t).mp hm
  unfold extract_pages splitPieces
  rw [splitPiecesGo_noMarker _ [] hall]
  simp only [List.reverse_nil, List.nil_append, joinNl_splitNl,
    List.map_cons, List.map_nil, hs]
  cases t with
  | nil => exact absurd rfl hne
  | cons c rest => rfl

/-- Claim C10: for a cached file whose content holds no `# Page N`
marker line — neither in the raw bytes nor after cleaning — and whose
cleaned content is non-empty, the page extractor returns exactly one
page equal to the whole trimmed content, so segmenting page 1 reports
`total_pages = 1`; the sync indexer, which counts marker occurrences
rather than extracted pages, records a cached page count of 0 for the
very same file. -/
theorem spec_c10 (w : World) (mem : Cache) (file : String) (r : FileRecord)
    (fd : FileData) (maxChars : Nat)
    (hmem : alookup file mem = some r)
    (hopen : openFile w file = Except.ok fd.content)
    (hne : cleanContent fd.content ≠ [])
    (hclean : countPageMarkers (cleanContent fd.content) = 0)
    (hraw : countPageMarkers fd.content = 0) :
    extract_pages (cleanContent fd.content) = [cleanContent fd.content] ∧
    segment_file w mem file (some [1]) 0 0 maxChars =
      Except.ok (PyRes.ok
        { file := file
          total_pages := 1
          segments := [segmentOfPage [cleanContent fd.content] maxChars 1] }) ∧
    (mkRecord file fd).pages = 0 := by
  have hext : extract_pages (cleanContent fd.content) = [cleanContent fd.content] :=
    extract_pages_noMarker _ hne hclean (pstrip_idem _)
  refine ⟨hext, ?_, ?_⟩
  · simp [segment_file, Bind.bind, Except.bind, hmem, hopen, hext,
      List.find?, sortNat, insertSorted, pure, Except.pure]
  · simp [mkRecord, hraw]

/-- Witness for claim C10 on the concrete marker-free file: the
hypotheses hold and the conclusion follows by the theorem. -/
theorem spec_c10_witness :
    (alookup "d/m.md" exMemM = some (mkRecord "d/m.md" exFdM) ∧
     openFile exWorldM "d/m.md" = Except.ok exFdM.content ∧
     cleanContent exFdM.content ≠ [] ∧
     countPageMarkers (cleanContent exFdM.content) = 0 ∧
     countPageMarkers exFdM.content = 0) ∧
    (extract_pages (cleanContent exFdM.content) = [cleanContent exFdM.content] ∧
     segment_file exWorldM exMemM "d/m.md" (some [1]) 0 0 100 =
       Except.ok (PyRes.ok
         { file := "d/m.md"
           total_pages := 1
           segments := [segmentOfPage [cleanContent exFdM.content] 100 1] }) ∧
     (mkRecord "d/m.md" exFdM).pages = 0) :=
  ⟨⟨by rfl, by rfl, by decide, by rfl, by rfl⟩,
   spec_c10 exWorldM exMemM "d/m.md" (mkRecord "d/m.md" exFdM) exFdM 100
     (by rfl) (by rfl) (by decide) (by rfl) (by rfl)⟩

end SuperSearch
